import Mathlib

/-!
Verification of the corrkit sync core (`src/util.rs`, `src/sync/markdown.rs`,
`src/sync/imap_sync.rs`, `src/sync/types.rs`) against its specification.

Strings are modelled as `List Char` (`Str`).  Rust's Unicode-aware
`char::is_whitespace` / `str::to_lowercase` are modelled by their ASCII
restrictions (`isWs`, `lowerChar`); every concrete input used in the
theorems below is ASCII, where the two coincide.  Filesystem directories
are modelled as association lists from file name to file content; the
OS iteration order of `read_dir` is modelled as the list order.
The regex matching done by the Rust code (`META_RE`, `MSG_HEADER_RE`,
`THREAD_ID_RE`, `SLUG_RE`, `THREAD_KEY_RE`) is embedded by explicit
character scanners implementing leftmost, lazy-group semantics.
-/

namespace Corrkit

/-- Strings are lists of characters. -/
abbrev Str := List Char

/-- ASCII whitespace test: models `char::is_whitespace` (and the regex
class `\s`) on the ASCII fragment. -/
def isWs (c : Char) : Bool := c = ' ' || c = '\t' || c = '\n' || c = '\r'

/-- `str::trim_start`: drop leading whitespace. -/
def trimLeft (l : Str) : Str := l.dropWhile isWs

/-- `str::trim_end`: drop trailing whitespace. -/
def trimRight (l : Str) : Str := (l.reverse.dropWhile isWs).reverse

/-- `str::trim`. -/
def trim (l : Str) : Str := trimRight (trimLeft l)

/-- ASCII lower-casing of one character: models `char::to_lowercase`
(which on ASCII maps `A..Z` to `a..z` and fixes everything else). -/
def lowerChar (c : Char) : Char :=
  if h : 65 ≤ c.toNat ∧ c.toNat ≤ 90 then
    Char.ofNatAux (c.toNat + 32) (Or.inl (by omega))
  else c

/-- `str::to_lowercase` (ASCII model). -/
def lowerStr (l : Str) : Str := l.map lowerChar

/-- Split a string at every newline, as Rust's `text.split('\n')` does
(n separators yield n+1 pieces, empty pieces included). -/
def splitNl : Str → List Str
  | [] => [[]]
  | c :: cs =>
    if c = '\n' then [] :: splitNl cs
    else
      match splitNl cs with
      | [] => [[c]]
      | l :: ls => (c :: l) :: ls

/-- Join lines with `"\n"`, as Rust's `lines.join("\n")`. -/
def joinNl : List Str → Str
  | [] => []
  | [l] => l
  | l :: l2 :: ls => l ++ '\n' :: joinNl (l2 :: ls)

/-- Split a string at every comma, as Rust's `s.split(',')`. -/
def splitComma : Str → List Str
  | [] => [[]]
  | c :: cs =>
    if c = ',' then [] :: splitComma cs
    else
      match splitComma cs with
      | [] => [[c]]
      | l :: ls => (c :: l) :: ls

/-- Join strings with `", "`, as Rust's `vec.join(", ")`. -/
def joinCommaSpace : List Str → Str
  | [] => []
  | [l] => l
  | l :: l2 :: ls => l ++ ',' :: ' ' :: joinCommaSpace (l2 :: ls)

/-- `a.strip_prefix(p)`: `some` of the remainder when `p` is a prefix. -/
def dropPre : Str → Str → Option Str
  | [], s => some s
  | _, [] => none
  | p :: ps, c :: cs => if c = p then dropPre ps cs else none

/-- Concatenation of the images of `f`, as iterator `flat_map`. -/
def catMap {α β : Type} (f : α → List β) : List α → List β
  | [] => []
  | a :: l => f a ++ catMap f l

-- ---------------------------------------------------------------------------
-- src/sync/types.rs: data model
-- ---------------------------------------------------------------------------

/-- `Message` of `src/sync/types.rs` (`from` is a Lean keyword, hence `from_`). -/
structure Message where
  id : Str
  thread_id : Str
  from_ : Str
  date : Str
  subject : Str
  body : Str
deriving DecidableEq

/-- `Thread` of `src/sync/types.rs`. -/
structure Thread where
  id : Str
  subject : Str
  labels : List Str
  accounts : List Str
  messages : List Message
  last_date : Str
deriving DecidableEq

/-- `Thread::default()`: all fields empty. -/
def Thread.default0 : Thread := ⟨[], [], [], [], [], []⟩

/-- `LabelState` of `src/sync/types.rs`: per-(account,label) sync cursor. -/
structure LabelState where
  uidvalidity : Nat
  last_uid : Nat
deriving DecidableEq

-- ---------------------------------------------------------------------------
-- src/util.rs: slugify and thread_key_from_subject
-- ---------------------------------------------------------------------------

/-- The character class `[a-z0-9]` (complement of `SLUG_RE`). -/
def slugAllowed (c : Char) : Bool := ('a' ≤ c && c ≤ 'z') || ('0' ≤ c && c ≤ '9')

/-- One left-to-right pass implementing `SLUG_RE.replace_all(lower, "-")`
(`SLUG_RE = [^a-z0-9]+`): each maximal run of disallowed characters becomes
one hyphen.  The boolean records being inside such a run. -/
def collapseAux : Bool → Str → Str
  | _, [] => []
  | inRun, c :: cs =>
    if slugAllowed c then c :: collapseAux false cs
    else if inRun then collapseAux true cs
    else '-' :: collapseAux true cs

/-- `SLUG_RE.replace_all(s, "-")`. -/
def collapseRuns (l : Str) : Str := collapseAux false l

/-- `str::trim_matches('-')`. -/
def trimHyphens (l : Str) : Str :=
  ((l.dropWhile (fun c => c = '-')).reverse.dropWhile (fun c => c = '-')).reverse

/-- Byte length of the UTF-8 encoding, Rust's `str::len()`. -/
def utf8Len (l : Str) : Nat := (l.map Char.utf8Size).sum

/-- Rust's `str::is_char_boundary(n)`: `n` is the byte length of some
character prefix. -/
def isBoundaryAt (l : Str) (n : Nat) : Bool :=
  (List.range (l.length + 1)).any (fun k => utf8Len (l.take k) = n)

/-- The `while !trimmed.is_char_boundary(end) && end > 0 { end -= 1 }` loop
of `slugify`: the largest char boundary `≤ n` (0 is always a boundary). -/
def findBoundaryDown (l : Str) : Nat → Nat
  | 0 => 0
  | n + 1 => if isBoundaryAt l (n + 1) then n + 1 else findBoundaryDown l n

/-- The byte slice `&s[..n]` as a character list: greedily take characters
while the byte budget lasts (exact for `n` a char boundary). -/
def takeBytes : Str → Nat → Str
  | [], _ => []
  | c :: cs, n => if c.utf8Size ≤ n then c :: takeBytes cs (n - c.utf8Size) else []

/-- `slugify` of `src/util.rs`, step for step: lowercase, replace runs of
non-`[a-z0-9]` by one hyphen, trim hyphens, truncate to 60 bytes moving the
cut down to a char boundary, substitute `"untitled"` when empty. -/
def slugify (s : Str) : Str :=
  let lower := lowerStr s
  let slugged := collapseRuns lower
  let trimmed := trimHyphens slugged
  let truncated :=
    if utf8Len trimmed > 60 then takeBytes trimmed (findBoundaryDown trimmed 60)
    else trimmed
  if truncated = [] then "untitled".toList else truncated

/-- The slug derivation as the specification words it: collapse every run of
non-alphanumeric characters of the lowercased text to a single hyphen (here
via mapping each such character to a hyphen and deduplicating adjacent
hyphens), trim hyphens, truncate to at most 60 bytes without splitting a
character, substitute `"untitled"` when empty. -/
def dedupHyph : Str → Str
  | [] => []
  | [c] => [c]
  | c :: c2 :: cs =>
    if c = '-' ∧ c2 = '-' then dedupHyph (c2 :: cs)
    else c :: dedupHyph (c2 :: cs)

/-- Spec-side slug function (see `dedupHyph`). -/
def spec_slugify (s : Str) : Str :=
  let collapsed := dedupHyph ((lowerStr s).map (fun c => if slugAllowed c then c else '-'))
  let trimmed := trimHyphens collapsed
  let truncated := takeBytes trimmed 60
  if truncated = [] then "untitled".toList else truncated

/-- Case-insensitive `strip_prefix`, the `(?i)` matching of `THREAD_KEY_RE`. -/
def ciStrip : Str → Str → Option Str
  | [], s => some s
  | _ :: _, [] => none
  | p :: ps, c :: cs => if lowerChar c = lowerChar p then ciStrip ps cs else none

/-- `THREAD_KEY_RE.replace(s, "")` where `THREAD_KEY_RE = (?i)^(re|fwd?):\s*`:
strip one leading reply marker (alternation order `re`, `fwd`, `fw`) together
with the colon and all following whitespace. -/
def stripReplyMarker (s : Str) : Str :=
  match ciStrip ("re:".toList) s with
  | some rest => rest.dropWhile isWs
  | none =>
    match ciStrip ("fwd:".toList) s with
    | some rest => rest.dropWhile isWs
    | none =>
      match ciStrip ("fw:".toList) s with
      | some rest => rest.dropWhile isWs
      | none => s

/-- `thread_key_from_subject` of `src/util.rs`: trim, lowercase, strip one
reply marker. -/
def thread_key_from_subject (subject : Str) : Str :=
  stripReplyMarker (lowerStr (trim subject))

/-- Literal (already-lowercased) variant of the reply-marker stripping, used
by the spec-side key function. -/
def litStrip (s : Str) : Str :=
  match dropPre ("re:".toList) s with
  | some rest => rest.dropWhile isWs
  | none =>
    match dropPre ("fwd:".toList) s with
    | some rest => rest.dropWhile isWs
    | none =>
      match dropPre ("fw:".toList) s with
      | some rest => rest.dropWhile isWs
      | none => s

/-- The thread key as the specification words it: the subject trimmed,
lowercased, and with at most one leading `re:`/`fwd:`/`fw:` marker (matched
case-insensitively, i.e. literally after lowercasing) plus its trailing
whitespace removed. -/
def spec_thread_key (subject : Str) : Str := litStrip (lowerStr (trim subject))

/-- A string is a reply marker when it is `re`/`fw`/`fwd` in any casing,
a colon, and optional whitespace. -/
def isReplyMarkerStr (p : Str) : Prop :=
  ∃ w ws, p = w ++ ':' :: ws ∧
    (lowerStr w = "re".toList ∨ lowerStr w = "fw".toList ∨ lowerStr w = "fwd".toList) ∧
    ∀ c ∈ ws, isWs c

/-- A (lowercased) string starts with a reply marker. -/
def hasReplyMarker (t : Str) : Prop :=
  (dropPre ("re:".toList) t).isSome ∨ (dropPre ("fwd:".toList) t).isSome ∨
    (dropPre ("fw:".toList) t).isSome

-- ---------------------------------------------------------------------------
-- src/sync/markdown.rs: the Markdown codec
-- ---------------------------------------------------------------------------

/-- The `## {from} — {date}` message header line. -/
def headerLine (m : Message) : Str :=
  '#' :: '#' :: ' ' :: (m.from_ ++ ' ' :: '—' :: ' ' :: m.date)

/-- The metadata preamble pushed by `thread_to_markdown`. -/
def encPreamble (t : Thread) : List Str :=
  [('#' :: ' ' :: t.subject),
   [],
   ("**Labels**: ".toList ++ joinCommaSpace t.labels),
   ("**Accounts**: ".toList ++ joinCommaSpace t.accounts),
   ("**Thread ID**: ".toList ++ t.id),
   ("**Last updated**: ".toList ++ t.last_date),
   []]

/-- The line list built by `thread_to_markdown` (body blocks may contain
embedded newlines; `joinNl` flattens them exactly as `lines.join("\n")`). -/
def encodeLines (t : Thread) : List Str :=
  encPreamble t ++
  catMap (fun m => [['-', '-', '-'], [], headerLine m, [], trim m.body, []]) t.messages

/-- `thread_to_markdown` of `src/sync/markdown.rs`. -/
def thread_to_markdown (t : Thread) : Str := joinNl (encodeLines t)

/-- One message block of the encoding, after re-splitting the text at
newlines (so a multi-line body contributes its individual lines). -/
def encBlock (m : Message) : List Str :=
  ['-', '-', '-'] :: [] :: headerLine m :: [] :: (splitNl (trim m.body) ++ [[]])

/-- The full line list the parser sees for an encoded thread. -/
def encLinesSplit (t : Thread) : List Str :=
  encPreamble t ++ catMap encBlock t.messages

/-- Scanner for `META_RE = (?m)^\*\*(.+?)\*\*:\s*(.+)$` after the leading
`**`: find the leftmost `**:` with a nonempty key before it and a nonempty
remainder after it (the lazy group extends past a candidate only when the
rest of the pattern cannot match there).  `acc` holds the key so far,
reversed.  The returned value is the raw remainder after `**:`; combined
with the greedy-backtracking `\s*(.+)$`, `cap[2].trim()` equals that
remainder trimmed, which is how callers use it. -/
def scanKey : Str → Str → Option (Str × Str)
  | _, [] => none
  | acc, c :: cs =>
    match c, cs with
    | '*', '*' :: ':' :: r2 =>
      if acc ≠ [] ∧ r2 ≠ [] then some (acc.reverse, r2) else scanKey ('*' :: acc) cs
    | _, _ => scanKey (c :: acc) cs

/-- One line matched against `META_RE`; `some (key, rawRest)` on success. -/
def metaParse (l : Str) : Option (Str × Str) :=
  match l with
  | '*' :: '*' :: rest => scanKey [] rest
  | _ => none

/-- Scanner for `MSG_HEADER_RE = ^## (.+?) \u{2014} (.+)$` after the leading
`## `: find the leftmost em-dash separator with nonempty sender before it
and nonempty date after it. -/
def scanFrom : Str → Str → Option (Str × Str)
  | _, [] => none
  | acc, c :: cs =>
    match c, cs with
    | ' ', '—' :: ' ' :: r2 =>
      if acc ≠ [] ∧ r2 ≠ [] then some (acc.reverse, r2) else scanFrom (' ' :: acc) cs
    | _, _ => scanFrom (c :: acc) cs

/-- One line matched against `MSG_HEADER_RE`; `some (from, date)`. -/
def msgHeaderParse (l : Str) : Option (Str × Str) :=
  match l with
  | '#' :: '#' :: ' ' :: rest => scanFrom [] rest
  | _ => none

/-- All `META_RE` matches of the text, in line order. -/
def metaPairs (lines : List Str) : List (Str × Str) :=
  lines.filterMap metaParse

/-- The `meta` HashMap of `parse_thread_markdown`: values are inserted
trimmed and a later line with the same key overwrites an earlier one. -/
def lookupMeta (lines : List Str) (key : Str) : Option Str :=
  (((metaPairs lines).filter (fun kv => kv.1 = key)).getLast?).map (fun kv => trim kv.2)

/-- `Labels`/`Accounts` value parsing: split on commas, trim, drop empties. -/
def parseCsv (s : Str) : List Str :=
  ((splitComma s).map trim).filter (fun x => x ≠ [])

/-- Fold state of the message-section loop of `parse_thread_markdown`. -/
structure MState where
  inMsg : Bool
  curFrom : Str
  curDate : Str
  bodyAcc : List Str
  out : List Message
deriving DecidableEq

/-- Close the message currently being accumulated. -/
def mkParsedMsg (subject f d : Str) (body : List Str) : Message :=
  ⟨[], thread_key_from_subject subject, f, d, subject, trim (joinNl body)⟩

/-- One line of the message-section loop. -/
def msgStep (subject : Str) (st : MState) (line : Str) : MState :=
  match msgHeaderParse line with
  | some fd =>
    ⟨true, fd.1, fd.2, [],
      st.out ++ (if st.inMsg then [mkParsedMsg subject st.curFrom st.curDate st.bodyAcc] else [])⟩
  | none =>
    if st.inMsg = true ∧ trim line ≠ ['-', '-', '-'] then
      ⟨st.inMsg, st.curFrom, st.curDate, st.bodyAcc ++ [line], st.out⟩
    else st

/-- After the loop: flush the still-open message, if any. -/
def finalizeM (subject : Str) (st : MState) : List Message :=
  st.out ++ (if st.inMsg then [mkParsedMsg subject st.curFrom st.curDate st.bodyAcc] else [])

/-- The message sections of the file, in order. -/
def parseMsgs (subject : Str) (lines : List Str) : List Message :=
  finalizeM subject (lines.foldl (msgStep subject) ⟨false, [], [], [], []⟩)

/-- `parse_thread_markdown` of `src/sync/markdown.rs` (the source binds
`lines = text.split('\n')` once; here it is written out at each use). -/
def parse_thread_markdown (text : Str) : Option Thread :=
  match (splitNl text).findSome? (fun l => (dropPre ("# ".toList) l).map trim) with
  | none => none
  | some subject =>
    if subject = [] then none
    else
      some
        { id := (lookupMeta (splitNl text) ("Thread ID".toList)).getD []
          subject := subject
          labels := ((lookupMeta (splitNl text) ("Labels".toList)).map parseCsv).getD []
          accounts := ((lookupMeta (splitNl text) ("Accounts".toList)).map parseCsv).getD []
          messages := parseMsgs subject (splitNl text)
          last_date := (lookupMeta (splitNl text) ("Last updated".toList)).getD [] }

/-- The thread `parse_thread_markdown` recovers from `thread_to_markdown t`
for a well-formed `t`: message ids become empty, message thread ids and
subjects are rederived from the thread subject, `last_date` is trimmed. -/
def decodedMsg (subject : Str) (m : Message) : Message :=
  ⟨[], thread_key_from_subject subject, m.from_, m.date, subject, m.body⟩

/-- See `decodedMsg`. -/
def roundtripThread (t : Thread) : Thread :=
  { id := t.id, subject := t.subject, labels := t.labels, accounts := t.accounts,
    messages := t.messages.map (decodedMsg t.subject), last_date := trim t.last_date }

-- ---------------------------------------------------------------------------
-- src/sync/imap_sync.rs: merge engine, file store, sync cursor
-- ---------------------------------------------------------------------------

/-- A directory: file name to file content, in OS iteration order. -/
abbrev Dir := List (Str × Str)

/-- The file names of a directory. -/
def dirNames (dir : Dir) : List Str := dir.map (fun e => e.1)

/-- `THREAD_ID_RE = (?m)^\*\*Thread ID\*\*:\s*(.+)$` on one line, returning
the captured value trimmed (as `find_thread_file` compares it). -/
def threadIdLine (l : Str) : Option Str :=
  match dropPre ("**Thread ID**:".toList) l with
  | some rest => if rest ≠ [] then some (trim rest) else none
  | none => none

/-- First `THREAD_ID_RE` match of a file. -/
def threadIdOfContent (c : Str) : Option Str :=
  (splitNl c).findSome? threadIdLine

/-- `find_thread_file` of `src/sync/imap_sync.rs`: first `.md` file whose
(first) `Thread ID` metadata equals the key.  The model returns the entry
(name and content); the source returns the path and re-reads the file. -/
def find_thread_file (dir : Dir) (thread_id : Str) : Option (Str × Str) :=
  dir.find? (fun e => threadIdOfContent e.2 = some thread_id)

/-- Write (create or overwrite) one file. -/
def writeFile (dir : Dir) (name content : Str) : Dir :=
  if dir.any (fun e => e.1 = name) then
    dir.map (fun e => if e.1 = name then (name, content) else e)
  else dir ++ [(name, content)]

/-- Decimal digit. -/
def digitChar (n : Nat) : Char := Char.ofNat (48 + n)

/-- Decimal representation, fuel-driven (`natToStr` supplies enough fuel). -/
def natToStrAux : Nat → Nat → Str
  | 0, _ => []
  | fuel + 1, n =>
    if n < 10 then [digitChar n] else natToStrAux fuel (n / 10) ++ [digitChar (n % 10)]

/-- `format!("{}", n)` for `n : Nat`. -/
def natToStr (n : Nat) : Str := natToStrAux (n + 1) n

/-- `format!("{}.md", stem)`. -/
def mdName (stem : Str) : Str := stem ++ ".md".toList

/-- `format!("{}-{}", slug, n)`. -/
def slugN (slug : Str) (n : Nat) : Str := slug ++ '-' :: natToStr n

/-- The `while` loop of `unique_slug`: first `n' ≥ n` with `slug-n'.md`
unused (fuel-driven; `unique_slug` supplies enough fuel for the loop to
terminate at the true first free index). -/
def findFree (names : List Str) (slug : Str) : Nat → Nat → Nat
  | 0, n => n
  | fuel + 1, n => if mdName (slugN slug n) ∈ names then findFree names slug fuel (n + 1) else n

/-- `unique_slug` of `src/sync/imap_sync.rs`. -/
def unique_slug (dir : Dir) (slug : Str) : Str :=
  if mdName slug ∈ dirNames dir then
    slugN slug (findFree (dirNames dir) slug ((dirNames dir).length + 1) 2)
  else slug

/-- `Thread` freshly seeded by `merge_message_to_file` when no (decodable)
existing file is found: `id = thread_key`, `subject = message.subject`,
rest defaulted. -/
def freshThread (thread_key : Str) (message : Message) : Thread :=
  { Thread.default0 with id := thread_key, subject := message.subject }

/-- The label accumulation step of `merge_message_to_file`. -/
def accLabel (t : Thread) (label_name : Str) : Thread :=
  if label_name ≠ [] ∧ label_name ∉ t.labels then
    { t with labels := t.labels ++ [label_name] } else t

/-- The account accumulation step of `merge_message_to_file`. -/
def accAccount (t : Thread) (account_name : Str) : Thread :=
  if account_name ≠ [] ∧ account_name ∉ t.accounts then
    { t with accounts := t.accounts ++ [account_name] } else t

/-- The label/account accumulation of `merge_message_to_file`. -/
def accLabels (t : Thread) (label_name account_name : Str) : Thread :=
  accAccount (accLabel t label_name) account_name

/-- The messages' date order used by `sort_by_key(parse_msg_date)`; `dp` is
the composite date parser (see `parse_msg_date` below). -/
def dateLe (dp : Str → Int) (a b : Message) : Prop := dp a.date ≤ dp b.date

/-- `merge_message_to_file` of `src/sync/imap_sync.rs`, on the directory
model (the `set_mtime` call is cosmetic and filesystem-only, hence not
modelled).  Returns the new directory and the returned path. -/
def merge_message_to_file (dp : Str → Int) (dir : Dir) (label_name account_name : Str)
    (message : Message) (thread_key : Str) : Dir × Option Str :=
  let existing := find_thread_file dir thread_key
  let t0 : Thread :=
    match existing with
    | some entry =>
      match parse_thread_markdown entry.2 with
      | some t => t
      | none => freshThread thread_key message
    | none => freshThread thread_key message
  let t1 := accLabels t0 label_name account_name
  if t1.messages.any (fun m => m.from_ = message.from_ ∧ m.date = message.date) then
    match existing with
    | some entry => (writeFile dir entry.1 (thread_to_markdown t1), some entry.1)
    | none => (dir, none)
  else
    let sorted := List.insertionSort (fun a b => dp a.date ≤ dp b.date) (t1.messages ++ [message])
    let t2 := { t1 with messages := sorted,
                        last_date := ((sorted.getLast?).map Message.date).getD [] }
    let name :=
      match existing with
      | some entry => entry.1
      | none => mdName (unique_slug dir (slugify t2.subject))
    (writeFile dir name (thread_to_markdown t2), some name)

/-- The non-duplicate branch of `merge_message_to_file`: append the message,
re-sort ascending by parsed date, refresh `last_date` from the new last
message. -/
def sortUpd (dp : Str → Int) (t : Thread) (message : Message) : Thread :=
  { t with
    messages := List.insertionSort (fun a b => dp a.date ≤ dp b.date) (t.messages ++ [message]),
    last_date :=
      (((List.insertionSort (fun a b => dp a.date ≤ dp b.date)
        (t.messages ++ [message])).getLast?).map Message.date).getD [] }

/-- One call of the merge engine, as issued by the label sync driver. -/
structure MergeCall where
  label : Str
  account : Str
  msg : Message
  key : Str
deriving DecidableEq

/-- A sequence of merges against one directory. -/
def mergeSeq (dp : Str → Int) (calls : List MergeCall) (dir : Dir) : Dir :=
  calls.foldl (fun d c => (merge_message_to_file dp d c.label c.account c.msg c.key).1) dir

/-- `parse_msg_date` of `src/sync/imap_sync.rs`.  `rfc2822` models
`DateTime::parse_from_rfc2822` and `mailDate` models `mailparse::dateparse`
(both external library parsers, taken as parameters); `tsOk` models the
range check of `DateTime::from_timestamp`, whose failure -
`unwrap_or_default()` - and the failure of both parsers all yield the Unix
epoch (timestamp 0). -/
def parse_msg_date (rfc2822 mailDate : Str → Option Int) (tsOk : Int → Bool) (s : Str) : Int :=
  match rfc2822 s with
  | some t => t
  | none =>
    match mailDate s with
    | some ts => if tsOk ts then ts else 0
    | none => 0

/-- The fetch-mode decision of `sync_label`:
`full || prior.is_none() || prior.map(uidvalidity) != Some(uidvalidity)`. -/
def doFull (full : Bool) (prior : Option LabelState) (uidvalidity : Nat) : Bool :=
  full || prior.isNone || decide (prior.map LabelState.uidvalidity ≠ some uidvalidity)

/-- The ordinals `sync_label` goes on to fetch: the full (SINCE-based)
search result, or the incremental search result filtered to ordinals
strictly above the stored `last_uid`.  The two search results are
parameters, being IMAP server responses. -/
def selectedUids (full : Bool) (prior : Option LabelState) (uidvalidity : Nat)
    (searchFull searchIncr : List Nat) : List Nat :=
  if doFull full prior uidvalidity then searchFull
  else searchIncr.filter (fun u => (prior.map LabelState.last_uid).getD 0 < u)

/-- The `max_uid` accumulation of `sync_label`: a fetched ordinal bumps the
maximum only when its message was fetched and parsed successfully (`ok`),
since every failure `continue`s past the update. -/
def cursorFold (ok : Nat → Bool) (start : Nat) (uids : List Nat) : Nat :=
  uids.foldl (fun acc u => if ok u then (if acc < u then u else acc) else acc) start

/-- The `LabelState` persisted by a completed `sync_label` run that selected
the folder successfully: for an empty search the prior `last_uid` (0 if
none) is kept; otherwise the maximum over the prior value and the
successfully processed ordinals. -/
def syncLabelState (full : Bool) (prior : Option LabelState) (uidvalidity : Nat)
    (searchFull searchIncr : List Nat) (ok : Nat → Bool) : LabelState :=
  let uids := selectedUids full prior uidvalidity searchFull searchIncr
  if uids.isEmpty then ⟨uidvalidity, (prior.map LabelState.last_uid).getD 0⟩
  else ⟨uidvalidity, cursorFold ok ((prior.map LabelState.last_uid).getD 0) uids⟩

-- ---------------------------------------------------------------------------
-- Well-formedness (the hypotheses under which encode/decode round-trips)
-- ---------------------------------------------------------------------------

/-- The string contains no newline, so it stays one line in the encoding. -/
def noNl (l : Str) : Prop := '\n' ∉ l

/-- The string is its own trim. -/
def trimmedP (l : Str) : Prop := trim l = l

/-- A label or account entry survives the comma-joined metadata line. -/
def tokenOk (l : Str) : Prop := noNl l ∧ trimmedP l ∧ l ≠ [] ∧ ',' ∉ l

/-- The metadata keys the codec itself uses. -/
def reservedKeys : List Str :=
  ["Labels".toList, "Accounts".toList, "Thread ID".toList, "Last updated".toList]

/-- The line does not hijack a reserved metadata key. -/
def metaSafe (l : Str) : Prop := ((metaParse l).getD ([], [])).1 ∉ reservedKeys

/-- A body line that the parser hands back unchanged: no message header
match, not a `---` line, no reserved metadata key. -/
def bodyLineOk (l : Str) : Prop :=
  msgHeaderParse l = none ∧ trim l ≠ ['-', '-', '-'] ∧ metaSafe l

/-- The em-dash separator of message headers. -/
def sepStr : Str := [' ', '—', ' ']

/-- No occurrence of the separator inside the sender (including one
straddling into the appended separator), so the lazy header scan stops
exactly at the written separator. -/
def sepFree (f : Str) : Prop := ¬ sepStr <:+: (f ++ [' ', '—'])

/-- A message the codec round-trips (per-field well-formedness). -/
def validMsg (m : Message) : Prop :=
  noNl m.from_ ∧ trimmedP m.from_ ∧ m.from_ ≠ [] ∧ sepFree m.from_ ∧
  noNl m.date ∧ trimmedP m.date ∧ m.date ≠ [] ∧
  noNl m.subject ∧ trimmedP m.subject ∧ m.subject ≠ [] ∧
  trim m.body = m.body ∧ (∀ l ∈ splitNl m.body, bodyLineOk l)

/-- A thread the codec round-trips. -/
def validThread (t : Thread) : Prop :=
  noNl t.subject ∧ trimmedP t.subject ∧ t.subject ≠ [] ∧
  noNl t.id ∧ trimmedP t.id ∧
  noNl t.last_date ∧
  (∀ l ∈ t.labels, tokenOk l) ∧ (∀ a ∈ t.accounts, tokenOk a) ∧
  (∀ m ∈ t.messages, validMsg m)

/-- A merge call with well-formed arguments. -/
def validCall (c : MergeCall) : Prop :=
  (c.label = [] ∨ tokenOk c.label) ∧ (c.account = [] ∨ tokenOk c.account) ∧
  validMsg c.msg ∧ trimmedP c.msg.date ∧ noNl c.key ∧ trimmedP c.key

instance (dp : Str → Int) (a b : Message) : Decidable (dateLe dp a b) := by
  unfold dateLe; infer_instance

instance (l : Str) : Decidable (noNl l) := by unfold noNl; infer_instance

instance (l : Str) : Decidable (trimmedP l) := by unfold trimmedP; infer_instance

instance (l : Str) : Decidable (tokenOk l) := by unfold tokenOk; infer_instance

instance (l : Str) : Decidable (metaSafe l) := by unfold metaSafe; infer_instance

instance (l : Str) : Decidable (bodyLineOk l) := by unfold bodyLineOk; infer_instance

instance (f : Str) : Decidable (sepFree f) := by unfold sepFree; infer_instance

instance (m : Message) : Decidable (validMsg m) := by unfold validMsg; infer_instance

instance (t : Thread) : Decidable (validThread t) := by unfold validThread; infer_instance

instance (c : MergeCall) : Decidable (validCall c) := by unfold validCall; infer_instance

instance (p : Str) : Decidable (hasReplyMarker p) := by unfold hasReplyMarker; infer_instance

/-- Toy date parser for the concrete counterexamples: the byte length of
the date string. -/
def dpLen (s : Str) : Int := (s.length : Int)

/-- Occurrences of a `(from, date)` pair in a message list. -/
def countFromDate (f d : Str) (ms : List Message) : Nat :=
  ms.countP (fun m => m.from_ = f ∧ m.date = d)

/-- The invariant the merge engine maintains on every persisted file: its
content is the encoding of a well-formed thread whose message list is
sorted ascending by parsed date and nonempty, and whose `last_date` is the
date of the last (hence latest) message. -/
def dirInv (dp : Str → Int) (dir : Dir) : Prop :=
  ∀ e ∈ dir, ∃ t : Thread, e.2 = thread_to_markdown t ∧ validThread t ∧
    List.Pairwise (dateLe dp) t.messages ∧ t.messages ≠ [] ∧
    t.last_date = ((t.messages.getLast?).map Message.date).getD []

-- ---------------------------------------------------------------------------
-- Concrete instances used by counterexamples and witnesses
-- ---------------------------------------------------------------------------

/-- Build a message from string literals. -/
def mkMsgS (f d subj b : String) : Message :=
  ⟨"1".toList, "k".toList, f.toList, d.toList, subj.toList, b.toList⟩

/-- A representative well-formed thread (the `test_roundtrip` fixture of
`src/sync/markdown.rs`). -/
def testThread : Thread :=
  { id := "test-thread".toList
    subject := "Hello World".toList
    labels := ["inbox".toList]
    accounts := ["personal".toList]
    messages := [mkMsgS "Alice <alice@example.com>" "Mon, 10 Feb 2025 10:00:00 +0000"
      "Hello World" "Hello there!"]
    last_date := "Mon, 10 Feb 2025 10:00:00 +0000".toList }

/-- A well-formed merge call. -/
def callOk : MergeCall :=
  ⟨"inbox".toList, "acct".toList,
    mkMsgS "Alice" "Mon, 10 Feb 2025 10:00:00 +0000" "Hi" "hello", "hi".toList⟩

/-- A second well-formed call for the same message under another label. -/
def callOk2 : MergeCall :=
  ⟨"work".toList, "acct2".toList,
    mkMsgS "Alice" "Mon, 10 Feb 2025 10:00:00 +0000" "Hi" "hello", "hi".toList⟩

/-- A message whose body smuggles a line identical to its own header:
re-parsing the written file splits it into two messages with the same
`(from, date)` pair. -/
def callHeaderSmuggle : MergeCall :=
  ⟨"inbox".toList, "acct".toList, mkMsgS "f" "d" "Hi" "x\n## f — d\ny", "hi".toList⟩

/-- A message whose body smuggles a header line carrying a date that the
toy parser `dpLen` orders strictly earlier: the persisted file decodes to
an unsorted thread. -/
def callDateSmuggle : MergeCall :=
  ⟨"inbox".toList, "acct".toList, mkMsgS "f" "22" "Hi" "x\n## g — 1\ny", "hi".toList⟩

/-- Three calls with distinct thread keys whose subjects share the slug
`hello`. -/
def callSlugA : MergeCall :=
  ⟨"inbox".toList, "acct".toList, mkMsgS "A" "d1" "Hello" "b1", "k1".toList⟩

/-- See `callSlugA`. -/
def callSlugB : MergeCall :=
  ⟨"inbox".toList, "acct".toList, mkMsgS "B" "d2" "Hello!" "b2", "k2".toList⟩

/-- See `callSlugA`. -/
def callSlugC : MergeCall :=
  ⟨"inbox".toList, "acct".toList, mkMsgS "C" "d3" "HELLO" "b3", "k3".toList⟩

end Corrkit

namespace Corrkit

-- Basic lemmas about the string primitives.

theorem splitNl_ne_nil (l : Str) : splitNl l ≠ [] := by
  match l with
  | [] => simp [splitNl]
  | c :: cs =>
    simp only [splitNl]
    split
    · simp
    · split <;> simp

theorem splitNl_append_nl (a b : Str) :
    splitNl (a ++ '\n' :: b) = splitNl a ++ splitNl b := by
  induction a with
  | nil => simp [splitNl]
  | cons c cs ih =>
    have hne := splitNl_ne_nil cs
    match hm : splitNl cs with
    | [] => exact absurd hm hne
    | l :: ls =>
      simp only [List.cons_append, splitNl, List.append_eq]
      rw [ih, hm]
      by_cases hc : c = '\n' <;> simp [hc]

theorem splitNl_no_nl (l : Str) (h : '\n' ∉ l) : splitNl l = [l] := by
  induction l with
  | nil => simp [splitNl]
  | cons c cs ih =>
    simp only [List.mem_cons, not_or] at h
    have hc : ¬ c = '\n' := fun hh => h.1 hh.symm
    simp only [splitNl, hc, if_false]
    rw [ih h.2]

theorem trim_ws_cons (c : Char) (x : Str) (h : isWs c = true) : trim (c :: x) = trim x := by
  simp [trim, trimLeft, List.dropWhile_cons, h]

theorem trimRight_append_ws (c : Char) (x : Str) (h : isWs c = true) :
    trimRight (x ++ [c]) = trimRight x := by
  simp [trimRight, List.dropWhile_cons, h]

theorem trim_append_ws (c : Char) (x : Str) (h : isWs c = true) :
    trim (x ++ [c]) = trim x := by
  unfold trim trimLeft
  rw [List.dropWhile_append]
  by_cases he : (x.dropWhile isWs).isEmpty
  · simp only [he, if_pos]
    simp only [List.isEmpty_iff] at he
    simp [he, List.dropWhile_cons, h, trimRight, List.dropWhile_nil]
  · simp only [he, if_neg, Bool.false_eq_true, not_false_iff]
    exact trimRight_append_ws c _ h

theorem trim_nil : trim [] = [] := rfl

theorem joinNl_cons (a : Str) (ls : List Str) (h : ls ≠ []) :
    joinNl (a :: ls) = a ++ '\n' :: joinNl ls := by
  match ls with
  | [] => exact absurd rfl h
  | b :: ls' => rfl

theorem joinNl_append_singleton (ls : List Str) (a : Str) (h : ls ≠ []) :
    joinNl (ls ++ [a]) = joinNl ls ++ '\n' :: a := by
  induction ls with
  | nil => exact absurd rfl h
  | cons b ls' ih =>
    match ls' with
    | [] => simp [joinNl]
    | c :: ls'' =>
      rw [List.cons_append, joinNl_cons b ((c :: ls'') ++ [a]) (by simp),
        joinNl_cons b (c :: ls'') (by simp), ih (by simp)]
      simp

theorem joinNl_splitNl (s : Str) : joinNl (splitNl s) = s := by
  induction s with
  | nil => simp [splitNl, joinNl]
  | cons c cs ih =>
    simp only [splitNl]
    by_cases hc : c = '\n'
    · subst hc
      simp only [if_pos rfl]
      have h := splitNl_ne_nil cs
      match hm : splitNl cs with
      | [] => exact absurd hm h
      | l :: ls =>
        rw [hm] at ih
        simp [joinNl, ih]
    · simp only [hc, if_false]
      have h := splitNl_ne_nil cs
      match hm : splitNl cs with
      | [] => exact absurd hm h
      | l :: ls =>
        rw [hm] at ih
        match ls with
        | [] => simp [joinNl] at ih ⊢; exact ih
        | l2 :: ls' => simp [joinNl] at ih ⊢; exact ih

theorem splitNl_joinNl (L : List Str) (h : L ≠ []) :
    splitNl (joinNl L) = catMap splitNl L := by
  induction L with
  | nil => exact absurd rfl h
  | cons a ls ih =>
    match ls with
    | [] => simp [joinNl, catMap]
    | b :: ls' =>
      rw [joinNl_cons a (b :: ls') (by simp)]
      rw [splitNl_append_nl, ih (by simp)]
      rfl

theorem splitComma_ne_nil (l : Str) : splitComma l ≠ [] := by
  match l with
  | [] => simp [splitComma]
  | c :: cs =>
    simp only [splitComma]
    split
    · simp
    · split <;> simp

theorem splitComma_append_comma (a b : Str) (h : ',' ∉ a) :
    splitComma (a ++ ',' :: b) = a :: splitComma b := by
  induction a with
  | nil => simp [splitComma]
  | cons c cs ih =>
    simp only [List.mem_cons, not_or] at h
    have hc : ¬ c = ',' := fun hh => h.1 hh.symm
    simp only [List.cons_append, splitComma, hc, if_false, List.append_eq]
    rw [ih h.2]

theorem splitComma_no_comma (l : Str) (h : ',' ∉ l) : splitComma l = [l] := by
  induction l with
  | nil => simp [splitComma]
  | cons c cs ih =>
    simp only [List.mem_cons, not_or] at h
    have hc : ¬ c = ',' := fun hh => h.1 hh.symm
    simp only [splitComma, hc, if_false]
    rw [ih h.2]

theorem char_eq_iff_toNat (a b : Char) : a = b ↔ a.toNat = b.toNat := by
  constructor
  · intro h; rw [h]
  · intro h; exact Char.eq_of_val_eq (UInt32.ext h)

theorem lowerChar_toNat (c : Char) :
    (lowerChar c).toNat = if 65 ≤ c.toNat ∧ c.toNat ≤ 90 then c.toNat + 32 else c.toNat := by
  unfold lowerChar
  split
  · rfl
  · rfl

theorem lowerChar_isWs (c : Char) : isWs (lowerChar c) = isWs c := by
  have ht := lowerChar_toNat c
  have e1 : (' ' : Char).toNat = 32 := rfl
  have e2 : ('\t' : Char).toNat = 9 := rfl
  have e3 : ('\n' : Char).toNat = 10 := rfl
  have e4 : ('\r' : Char).toNat = 13 := rfl
  by_cases h : 65 ≤ c.toNat ∧ c.toNat ≤ 90
  · rw [if_pos h] at ht
    have h1 : isWs c = false := by
      unfold isWs
      simp only [Bool.or_eq_false_iff, decide_eq_false_iff_not, char_eq_iff_toNat]
      omega
    have h2 : isWs (lowerChar c) = false := by
      unfold isWs
      simp only [Bool.or_eq_false_iff, decide_eq_false_iff_not, char_eq_iff_toNat]
      omega
    rw [h1, h2]
  · rw [if_neg h] at ht
    have hfix : lowerChar c = c := by rw [char_eq_iff_toNat]; exact ht
    rw [hfix]

theorem lowerChar_idem (c : Char) : lowerChar (lowerChar c) = lowerChar c := by
  rw [char_eq_iff_toNat, lowerChar_toNat, lowerChar_toNat c]
  split_ifs <;> omega

end Corrkit

namespace Corrkit

theorem dropPre_self_append (p rest : Str) : dropPre p (p ++ rest) = some rest := by
  induction p with
  | nil => simp [dropPre]
  | cons c cs ih => simp [dropPre, ih]

theorem dropPre_eq_some (p l r : Str) (h : dropPre p l = some r) : l = p ++ r := by
  induction p generalizing l with
  | nil => simp [dropPre] at h; simp [h]
  | cons c cs ih =>
    match l with
    | [] => simp [dropPre] at h
    | x :: xs =>
      simp only [dropPre] at h
      by_cases hx : x = c
      · subst hx
        rw [if_pos rfl] at h
        simp [ih xs h]
      · rw [if_neg hx] at h
        exact absurd h (by simp)

theorem scanKey_cons_ne (acc : Str) (c : Char) (cs : Str) (hc : c ≠ '*') :
    scanKey acc (c :: cs) = scanKey (c :: acc) cs := by
  simp only [scanKey]
  split
  all_goals try rfl
  all_goals simp_all

theorem scanFrom_cons_skip (acc : Str) (c : Char) (cs : Str)
    (h : ¬ (c = ' ' ∧ cs.take 2 = ['—', ' '])) :
    scanFrom acc (c :: cs) = scanFrom (c :: acc) cs := by
  simp only [scanFrom]
  split
  all_goals try rfl
  all_goals simp_all

theorem scanKey_over (K : Str) : ∀ acc r2 : Str, (∀ c ∈ K, c ≠ '*') →
    (acc ≠ [] ∨ K ≠ []) → r2 ≠ [] →
    scanKey acc (K ++ '*' :: '*' :: ':' :: r2) = some (acc.reverse ++ K, r2) := by
  induction K with
  | nil =>
    intro acc r2 _ hne hr2
    have hacc : acc ≠ [] := by
      rcases hne with h | h
      · exact h
      · exact absurd rfl h
    simp only [List.nil_append, scanKey]
    rw [if_pos ⟨hacc, hr2⟩]
    simp
  | cons k K2 ih =>
    intro acc r2 hstar hne hr2
    have hk : k ≠ '*' := hstar k (by simp)
    rw [List.cons_append, scanKey_cons_ne acc k _ hk,
      ih (k :: acc) r2 (fun c hc => hstar c (by simp [hc])) (Or.inl (by simp)) hr2]
    simp

theorem scanFrom_over (F : Str) : ∀ acc d : Str, (¬ sepStr <:+: (F ++ [' ', '—'])) →
    (acc ≠ [] ∨ F ≠ []) → d ≠ [] →
    scanFrom acc (F ++ ' ' :: '—' :: ' ' :: d) = some (acc.reverse ++ F, d) := by
  induction F with
  | nil =>
    intro acc d _ hne hd
    have hacc : acc ≠ [] := by
      rcases hne with h | h
      · exact h
      · exact absurd rfl h
    simp only [List.nil_append, scanFrom]
    rw [if_pos ⟨hacc, hd⟩]
    simp
  | cons f F2 ih =>
    intro acc d hsep hne hd
    have hskip : ¬ (f = ' ' ∧ (F2 ++ ' ' :: '—' :: ' ' :: d).take 2 = ['—', ' ']) := by
      rintro ⟨hf, htake⟩
      subst hf
      apply hsep
      match F2 with
      | [] => simp at htake
      | [x] =>
        simp at htake
        subst htake
        exact ⟨[], ['—'], by simp [sepStr]⟩
      | x :: y :: F3 =>
        simp at htake
        obtain ⟨hx, hy⟩ := htake
        subst hx; subst hy
        exact ⟨[], F3 ++ [' ', '—'], by simp [sepStr]⟩
    have hsep2 : ¬ sepStr <:+: (F2 ++ [' ', '—']) := by
      intro hinf
      exact hsep (by
        rcases hinf with ⟨s, t, hst⟩
        exact ⟨f :: s, t, by simp [← hst]⟩)
    rw [List.cons_append, scanFrom_cons_skip acc f _ hskip,
      ih (f :: acc) d hsep2 (Or.inl (by simp)) hd]
    simp

end Corrkit

namespace Corrkit

theorem metaParse_keyline (K V : Str) (hK : ∀ c ∈ K, c ≠ '*') (hKne : K ≠ []) (hV : V ≠ []) :
    metaParse ('*' :: '*' :: (K ++ '*' :: '*' :: ':' :: V)) = some (K, V) := by
  simp only [metaParse]
  rw [scanKey_over K [] V hK (Or.inr hKne) hV]
  simp

theorem metaParse_labelsLine (v : Str) :
    metaParse ("**Labels**: ".toList ++ v) = some ("Labels".toList, ' ' :: v) := by
  have e : "**Labels**: ".toList ++ v =
      '*' :: '*' :: ("Labels".toList ++ '*' :: '*' :: ':' :: (' ' :: v)) := rfl
  rw [e]
  exact metaParse_keyline _ _ (by decide) (by decide) (by simp)

theorem metaParse_accountsLine (v : Str) :
    metaParse ("**Accounts**: ".toList ++ v) = some ("Accounts".toList, ' ' :: v) := by
  have e : "**Accounts**: ".toList ++ v =
      '*' :: '*' :: ("Accounts".toList ++ '*' :: '*' :: ':' :: (' ' :: v)) := rfl
  rw [e]
  exact metaParse_keyline _ _ (by decide) (by decide) (by simp)

theorem metaParse_threadIdLine (v : Str) :
    metaParse ("**Thread ID**: ".toList ++ v) = some ("Thread ID".toList, ' ' :: v) := by
  have e : "**Thread ID**: ".toList ++ v =
      '*' :: '*' :: ("Thread ID".toList ++ '*' :: '*' :: ':' :: (' ' :: v)) := rfl
  rw [e]
  exact metaParse_keyline _ _ (by decide) (by decide) (by simp)

theorem metaParse_lastUpdatedLine (v : Str) :
    metaParse ("**Last updated**: ".toList ++ v) = some ("Last updated".toList, ' ' :: v) := by
  have e : "**Last updated**: ".toList ++ v =
      '*' :: '*' :: ("Last updated".toList ++ '*' :: '*' :: ':' :: (' ' :: v)) := rfl
  rw [e]
  exact metaParse_keyline _ _ (by decide) (by decide) (by simp)

theorem metaParse_nil : metaParse [] = none := rfl

theorem metaParse_hash (r : Str) : metaParse ('#' :: r) = none := rfl

theorem metaParse_dash (r : Str) : metaParse ('-' :: r) = none := rfl

theorem msgHeaderParse_header (F D : Str) (hsep : ¬ sepStr <:+: (F ++ [' ', '—']))
    (hF : F ≠ []) (hD : D ≠ []) :
    msgHeaderParse ('#' :: '#' :: ' ' :: (F ++ ' ' :: '—' :: ' ' :: D)) = some (F, D) := by
  simp only [msgHeaderParse]
  rw [scanFrom_over F [] D hsep (Or.inr hF) hD]
  simp

theorem msgHeaderParse_nil : msgHeaderParse [] = none := rfl

theorem msgHeaderParse_star (r : Str) : msgHeaderParse ('*' :: r) = none := rfl

theorem msgHeaderParse_dash (r : Str) : msgHeaderParse ('-' :: r) = none := rfl

theorem msgHeaderParse_h1 (r : Str) : msgHeaderParse ('#' :: ' ' :: r) = none := rfl

theorem metaSafe_some (l : Str) (kv : Str × Str) (h : metaSafe l)
    (he : metaParse l = some kv) : kv.1 ∉ reservedKeys := by
  unfold metaSafe at h
  rw [he] at h
  exact h

theorem threadIdLine_of_metaSafe (l : Str) (h : metaSafe l) : threadIdLine l = none := by
  cases hd : dropPre ("**Thread ID**:".toList) l with
  | none => unfold threadIdLine; rw [hd]
  | some rest =>
    by_cases hr : rest = []
    · unfold threadIdLine
      rw [hd, hr]
      simp
    · have hl := dropPre_eq_some _ _ _ hd
      have hm : metaParse l = some ("Thread ID".toList, rest) := by
        rw [hl]
        have e : "**Thread ID**:".toList ++ rest =
            '*' :: '*' :: ("Thread ID".toList ++ '*' :: '*' :: ':' :: rest) := rfl
        rw [e]
        exact metaParse_keyline _ rest (by decide) (by decide) hr
      have := metaSafe_some l _ h hm
      simp [reservedKeys] at this

theorem threadIdLine_encode (v : Str) :
    threadIdLine ("**Thread ID**: ".toList ++ v) = some (trim v) := by
  unfold threadIdLine
  have e : "**Thread ID**: ".toList ++ v = "**Thread ID**:".toList ++ (' ' :: v) := rfl
  rw [e, dropPre_self_append]
  simp [trim_ws_cons ' ' v rfl]

end Corrkit

namespace Corrkit

theorem noNl_append (a b : Str) (ha : noNl a) (hb : noNl b) : noNl (a ++ b) := by
  unfold noNl at *
  simp [ha, hb]

theorem noNl_cons (c : Char) (a : Str) (hc : c ≠ '\n') (ha : noNl a) : noNl (c :: a) := by
  unfold noNl at *
  simp [ha]
  intro h
  exact hc h.symm

theorem noNl_joinCommaSpace (ls : List Str) (h : ∀ l ∈ ls, noNl l) :
    noNl (joinCommaSpace ls) := by
  induction ls with
  | nil => intro hmem; simp [joinCommaSpace] at hmem
  | cons a ls ih =>
    match ls with
    | [] =>
      simp only [joinCommaSpace]
      exact h a (by simp)
    | b :: ls2 =>
      simp only [joinCommaSpace]
      refine noNl_append _ _ (h a (by simp)) ?_
      refine noNl_cons _ _ (by decide) (noNl_cons _ _ (by decide) ?_)
      exact ih (fun l hl => h l (by simp [hl]))

theorem noNl_headerLine (m : Message) (hf : noNl m.from_) (hd : noNl m.date) :
    noNl (headerLine m) := by
  unfold headerLine
  refine noNl_cons _ _ (by decide) (noNl_cons _ _ (by decide) (noNl_cons _ _ (by decide) ?_))
  refine noNl_append _ _ hf ?_
  exact noNl_cons _ _ (by decide) (noNl_cons _ _ (by decide) (noNl_cons _ _ (by decide) hd))

theorem catMap_splitNl_blocks (ms : List Message) (h : ∀ m ∈ ms, validMsg m) :
    catMap splitNl
      (catMap (fun m => [['-', '-', '-'], [], headerLine m, [], trim m.body, []]) ms) =
    catMap encBlock ms := by
  induction ms with
  | nil => rfl
  | cons m ms ih =>
    have hm := h m (by simp)
    obtain ⟨hf, _, _, _, hd, _, _, _, _, _, _, _⟩ := hm
    simp only [catMap, List.nil_append, List.append_eq]
    rw [splitNl_no_nl (headerLine m) (noNl_headerLine m hf hd),
      ih (fun x hx => h x (by simp [hx]))]
    simp [encBlock, splitNl]

theorem splitNl_encode (t : Thread) (hv : validThread t) :
    splitNl (thread_to_markdown t) = encLinesSplit t := by
  obtain ⟨hs, _, _, hid, _, hlu, hlab, hacc, hmsg⟩ := hv
  unfold thread_to_markdown
  rw [splitNl_joinNl _ (by simp [encodeLines, encPreamble])]
  unfold encodeLines encLinesSplit encPreamble
  simp only [catMap, List.append_eq, List.cons_append, List.nil_append]
  rw [splitNl_no_nl ('#' :: ' ' :: t.subject)
      (noNl_cons _ _ (by decide) (noNl_cons _ _ (by decide) hs)),
    splitNl_no_nl ("**Labels**: ".toList ++ joinCommaSpace t.labels)
      (noNl_append _ _ (by decide) (noNl_joinCommaSpace _ (fun l hl => (hlab l hl).1))),
    splitNl_no_nl ("**Accounts**: ".toList ++ joinCommaSpace t.accounts)
      (noNl_append _ _ (by decide) (noNl_joinCommaSpace _ (fun l hl => (hacc l hl).1))),
    splitNl_no_nl ("**Thread ID**: ".toList ++ t.id)
      (noNl_append _ _ (by decide) hid),
    splitNl_no_nl ("**Last updated**: ".toList ++ t.last_date)
      (noNl_append _ _ (by decide) hlu),
    catMap_splitNl_blocks t.messages hmsg]
  simp [splitNl]

end Corrkit

namespace Corrkit

theorem msgStep_closed (subj : Str) (st : MState) (l : Str) (hin : st.inMsg = false)
    (hh : msgHeaderParse l = none) : msgStep subj st l = st := by
  simp only [msgStep, hh]
  simp [hin]

theorem foldl_msgStep_closed (subj : Str) (ls : List Str) (st : MState) (hin : st.inMsg = false)
    (hall : ∀ l ∈ ls, msgHeaderParse l = none) :
    List.foldl (msgStep subj) st ls = st := by
  induction ls with
  | nil => rfl
  | cons l ls ih =>
    rw [List.foldl_cons, msgStep_closed subj st l hin (hall l (by simp))]
    exact ih (fun x hx => hall x (by simp [hx]))

theorem msgStep_collect (subj f d : Str) (b : List Str) (o : List Message) (l : Str)
    (hh : msgHeaderParse l = none) (ht : trim l ≠ ['-', '-', '-']) :
    msgStep subj ⟨true, f, d, b, o⟩ l = ⟨true, f, d, b ++ [l], o⟩ := by
  simp only [msgStep, hh]
  simp [ht]

theorem msgStep_dash3 (subj : Str) (st : MState) : msgStep subj st ['-', '-', '-'] = st := by
  have hd3 : trim ['-', '-', '-'] = ['-', '-', '-'] := by decide
  simp only [msgStep, msgHeaderParse_dash]
  simp [hd3]

theorem msgStep_open (subj : Str) (st : MState) (l x y : Str)
    (hh : msgHeaderParse l = some (x, y)) :
    msgStep subj st l = ⟨true, x, y, [],
      st.out ++ (if st.inMsg then [mkParsedMsg subj st.curFrom st.curDate st.bodyAcc] else [])⟩ := by
  simp only [msgStep, hh]

theorem foldl_msgStep_collect (subj f d : Str) (o : List Message) (ls : List Str)
    (hall : ∀ l ∈ ls, msgHeaderParse l = none ∧ trim l ≠ ['-', '-', '-']) :
    ∀ b, List.foldl (msgStep subj) ⟨true, f, d, b, o⟩ ls = ⟨true, f, d, b ++ ls, o⟩ := by
  induction ls with
  | nil => intro b; simp
  | cons l ls ih =>
    intro b
    have h := hall l (by simp)
    rw [List.foldl_cons, msgStep_collect subj f d b o l h.1 h.2,
      ih (fun x hx => hall x (by simp [hx])) (b ++ [l])]
    simp

theorem trim_joinNl_append_blank (b : List Str) :
    trim (joinNl (b ++ [[]])) = trim (joinNl b) := by
  cases b with
  | nil => rfl
  | cons x xs =>
    rw [joinNl_append_singleton _ _ (by simp)]
    have : joinNl (x :: xs) ++ '\n' :: [] = joinNl (x :: xs) ++ ['\n'] := rfl
    rw [this, trim_append_ws '\n' _ rfl]

theorem mkParsedMsg_append_blank (subj f d : Str) (b : List Str) :
    mkParsedMsg subj f d (b ++ [[]]) = mkParsedMsg subj f d b := by
  unfold mkParsedMsg
  simp [trim_joinNl_append_blank]

theorem mkParsedMsg_block (subj f d body : Str) (hb : trim body = body) :
    mkParsedMsg subj f d ([] :: (splitNl body ++ [[]])) =
      ⟨[], thread_key_from_subject subj, f, d, subj, body⟩ := by
  unfold mkParsedMsg
  have h1 : joinNl ([] :: (splitNl body ++ [[]])) = '\n' :: joinNl (splitNl body ++ [[]]) := by
    rw [joinNl_cons _ _ (by simp)]
    simp
  have h2 : joinNl (splitNl body ++ [[]]) = body ++ ['\n'] := by
    rw [joinNl_append_singleton _ _ (splitNl_ne_nil body), joinNl_splitNl]
  rw [h1]
  rw [h2]
  rw [trim_ws_cons '\n' _ rfl]
  rw [trim_append_ws '\n' _ rfl]
  rw [hb]

theorem foldl_encBlock_open (subj : Str) (m : Message) (hm : validMsg m) (f d : Str)
    (b : List Str) (o : List Message) :
    List.foldl (msgStep subj) ⟨true, f, d, b, o⟩ (encBlock m) =
      ⟨true, m.from_, m.date, [] :: (splitNl m.body ++ [[]]),
        o ++ [mkParsedMsg subj f d (b ++ [[]])]⟩ := by
  obtain ⟨hf1, hf2, hf3, hf4, hd1, hd2, hd3, _, _, _, hb, hbl⟩ := hm
  have hhdr : msgHeaderParse (headerLine m) = some (m.from_, m.date) := by
    unfold headerLine
    exact msgHeaderParse_header m.from_ m.date hf4 hf3 hd3
  unfold encBlock
  rw [hb]
  rw [List.foldl_cons, msgStep_dash3]
  rw [List.foldl_cons, msgStep_collect subj f d b o [] rfl (by decide)]
  rw [List.foldl_cons, msgStep_open subj _ _ _ _ hhdr]
  simp only [if_pos]
  rw [List.foldl_cons, msgStep_collect subj _ _ _ _ [] rfl (by decide)]
  rw [List.foldl_append]
  rw [foldl_msgStep_collect subj _ _ _ (splitNl m.body)
    (fun l hl => ⟨(hbl l hl).1, (hbl l hl).2.1⟩) _]
  rw [foldl_msgStep_collect subj _ _ _ [[]] (by intro l hl; simp at hl; subst hl; exact ⟨rfl, by decide⟩) _]
  simp

theorem foldl_encBlock_closed (subj : Str) (m : Message) (hm : validMsg m) (f d : Str)
    (b : List Str) (o : List Message) :
    List.foldl (msgStep subj) ⟨false, f, d, b, o⟩ (encBlock m) =
      ⟨true, m.from_, m.date, [] :: (splitNl m.body ++ [[]]), o⟩ := by
  obtain ⟨hf1, hf2, hf3, hf4, hd1, hd2, hd3, _, _, _, hb, hbl⟩ := hm
  have hhdr : msgHeaderParse (headerLine m) = some (m.from_, m.date) := by
    unfold headerLine
    exact msgHeaderParse_header m.from_ m.date hf4 hf3 hd3
  unfold encBlock
  rw [hb]
  rw [List.foldl_cons, msgStep_closed subj _ _ rfl (msgHeaderParse_dash _)]
  rw [List.foldl_cons, msgStep_closed subj _ _ rfl msgHeaderParse_nil]
  rw [List.foldl_cons, msgStep_open subj _ _ _ _ hhdr]
  simp only [if_neg]
  rw [List.foldl_cons, msgStep_collect subj _ _ _ _ [] rfl (by decide)]
  rw [List.foldl_append]
  rw [foldl_msgStep_collect subj _ _ _ (splitNl m.body)
    (fun l hl => ⟨(hbl l hl).1, (hbl l hl).2.1⟩) _]
  rw [foldl_msgStep_collect subj _ _ _ [[]] (by intro l hl; simp at hl; subst hl; exact ⟨rfl, by decide⟩) _]
  simp

end Corrkit

namespace Corrkit

theorem finalize_foldl_blocks (subj : Str) (ms : List Message) (hms : ∀ m ∈ ms, validMsg m) :
    ∀ f d : Str, ∀ b : List Str, ∀ o : List Message,
    finalizeM subj (List.foldl (msgStep subj) ⟨true, f, d, b, o⟩ (catMap encBlock ms)) =
      o ++ mkParsedMsg subj f d b :: ms.map (decodedMsg subj) := by
  induction ms with
  | nil =>
    intro f d b o
    simp [catMap, finalizeM]
  | cons m ms ih =>
    intro f d b o
    simp only [catMap]
    rw [List.foldl_append, foldl_encBlock_open subj m (hms m (by simp)) f d b o,
      ih (fun x hx => hms x (by simp [hx])) m.from_ m.date ([] :: (splitNl m.body ++ [[]]))
        (o ++ [mkParsedMsg subj f d (b ++ [[]])]),
      mkParsedMsg_append_blank,
      mkParsedMsg_block subj m.from_ m.date m.body ((hms m (by simp)).2.2.2.2.2.2.2.2.2.2.1)]
    simp [decodedMsg]

theorem parseMsgs_encode (subj : Str) (t : Thread) (hv : validThread t) :
    parseMsgs subj (encLinesSplit t) = t.messages.map (decodedMsg subj) := by
  obtain ⟨hs, _, _, _, _, _, _, _, hmsg⟩ := hv
  unfold parseMsgs encLinesSplit
  rw [List.foldl_append]
  rw [foldl_msgStep_closed subj (encPreamble t) _ rfl ?hpre]
  case hpre =>
    intro l hl
    unfold encPreamble at hl
    simp at hl
    rcases hl with h | h | h | h | h | h | h <;> subst h
    · exact msgHeaderParse_h1 t.subject
    · exact msgHeaderParse_nil
    · exact msgHeaderParse_star _
    · exact msgHeaderParse_star _
    · exact msgHeaderParse_star _
    · exact msgHeaderParse_star _
    · exact msgHeaderParse_nil
  cases hm : t.messages with
  | nil => simp [catMap, finalizeM]
  | cons m ms =>
    rw [hm] at hmsg
    simp only [catMap]
    rw [List.foldl_append, foldl_encBlock_closed subj m (hmsg m (by simp)) [] [] [] [],
      finalize_foldl_blocks subj ms (fun x hx => hmsg x (by simp [hx])) m.from_ m.date
        ([] :: (splitNl m.body ++ [[]])) [],
      mkParsedMsg_block subj m.from_ m.date m.body ((hmsg m (by simp)).2.2.2.2.2.2.2.2.2.2.1)]
    simp [decodedMsg]

end Corrkit

namespace Corrkit

theorem length_dropWhile_le2 (p : Char → Bool) (l : List Char) :
    (l.dropWhile p).length ≤ l.length := by
  induction l with
  | nil => simp
  | cons c cs ih =>
    rw [List.dropWhile_cons]
    split
    · exact Nat.le_trans ih (by simp)
    · simp

theorem trim_length_le (l : Str) : (trim l).length ≤ l.length := by
  unfold trim trimRight trimLeft
  calc ((((l.dropWhile isWs).reverse).dropWhile isWs).reverse).length
      = (((l.dropWhile isWs).reverse).dropWhile isWs).length := by simp
    _ ≤ ((l.dropWhile isWs).reverse).length := length_dropWhile_le2 _ _
    _ = (l.dropWhile isWs).length := by simp
    _ ≤ l.length := length_dropWhile_le2 _ _

theorem head_not_ws_of_trimmed (c : Char) (cs : Str) (h : trim (c :: cs) = c :: cs) :
    isWs c = false := by
  by_cases hw : isWs c = true
  · exfalso
    have h2 : trim (c :: cs) = trim cs := trim_ws_cons c cs hw
    have h3 : (trim cs).length ≤ cs.length := trim_length_le cs
    rw [h2] at h
    have : (c :: cs).length = (trim cs).length := by rw [h]
    simp at this
    omega
  · simpa using hw

theorem trimLeft_cons_nonws (c : Char) (x : Str) (hc : isWs c = false) :
    trimLeft (c :: x) = c :: x := by
  unfold trimLeft
  rw [List.dropWhile_cons_of_neg (by simp [hc])]

theorem trimRight_of_trimmed_token (a : Str) (ha : trim a = a) (hne : a ≠ []) :
    trimRight a = a := by
  match a with
  | c :: cs =>
    have hc := head_not_ws_of_trimmed c cs ha
    have h1 : trimLeft (c :: cs) = c :: cs := trimLeft_cons_nonws c cs hc
    have : trim (c :: cs) = trimRight (c :: cs) := by unfold trim; rw [h1]
    rw [← this, ha]

theorem dropWhile_eq_self_head (c : Char) (cs : Str) (h : (c :: cs).dropWhile isWs = c :: cs) :
    isWs c = false := by
  by_cases hw : isWs c = true
  · exfalso
    rw [List.dropWhile_cons_of_pos hw] at h
    have := length_dropWhile_le2 isWs cs
    have h2 : (cs.dropWhile isWs).length = (c :: cs).length := by rw [h]
    simp at h2
    omega
  · simpa using hw

theorem trimRight_append_right (x u : Str) (hu : trimRight u = u) (hne : u ≠ []) :
    trimRight (x ++ u) = x ++ u := by
  unfold trimRight at *
  have hrev : u.reverse.dropWhile isWs = u.reverse := by
    have := congrArg List.reverse hu
    simpa using this
  match hu2 : u.reverse with
  | [] =>
    exfalso
    have : u = [] := by simpa using congrArg List.reverse hu2
    exact hne this
  | c :: cs =>
    rw [hu2] at hrev
    have hc := dropWhile_eq_self_head c cs hrev
    rw [List.reverse_append, hu2, List.cons_append,
      List.dropWhile_cons_of_neg (by simp [hc])]
    have hufix : u = (c :: cs).reverse := by
      have := congrArg List.reverse hu2
      simpa using this
    rw [hufix]
    simp

end Corrkit

namespace Corrkit

theorem joinCommaSpace_ne_nil (a : Str) (rest : List Str) (ha : a ≠ []) :
    joinCommaSpace (a :: rest) ≠ [] := by
  match rest with
  | [] => simpa [joinCommaSpace] using ha
  | b :: rs =>
    simp only [joinCommaSpace]
    intro h
    rcases List.append_eq_nil.mp h with ⟨h1, _⟩
    exact ha h1

theorem trimRight_joinCommaSpace (ls : List Str) (h : ∀ l ∈ ls, tokenOk l) :
    trimRight (joinCommaSpace ls) = joinCommaSpace ls := by
  induction ls with
  | nil => rfl
  | cons a rest ih =>
    obtain ⟨_, ha2, ha3, _⟩ := h a (by simp)
    match rest with
    | [] =>
      simp only [joinCommaSpace]
      exact trimRight_of_trimmed_token a ha2 ha3
    | b :: rs =>
      simp only [joinCommaSpace]
      have hb3 : b ≠ [] := (h b (by simp)).2.2.1
      have hjoin_ne : joinCommaSpace (b :: rs) ≠ [] := joinCommaSpace_ne_nil b rs hb3
      have hrest : trimRight (joinCommaSpace (b :: rs)) = joinCommaSpace (b :: rs) :=
        ih (fun l hl => h l (by simp at hl; rcases hl with h1 | h1 <;> simp [h1]))
      have hu : trimRight (',' :: ' ' :: joinCommaSpace (b :: rs)) =
          ',' :: ' ' :: joinCommaSpace (b :: rs) := by
        have := trimRight_append_right [',', ' '] (joinCommaSpace (b :: rs)) hrest hjoin_ne
        simpa using this
      have := trimRight_append_right a (',' :: ' ' :: joinCommaSpace (b :: rs)) hu (by simp)
      simpa using this

theorem trim_joinCommaSpace (ls : List Str) (h : ∀ l ∈ ls, tokenOk l) :
    trim (' ' :: joinCommaSpace ls) = joinCommaSpace ls := by
  rw [trim_ws_cons ' ' _ rfl]
  match ls with
  | [] => rfl
  | a :: rest =>
    obtain ⟨_, ha2, ha3, _⟩ := h a (by simp)
    unfold trim
    have hleft : trimLeft (joinCommaSpace (a :: rest)) = joinCommaSpace (a :: rest) := by
      match a, ha3 with
      | c :: cs, _ =>
        have hc := head_not_ws_of_trimmed c cs ha2
        match rest with
        | [] => exact trimLeft_cons_nonws c cs hc
        | b :: rs =>
          simp only [joinCommaSpace, List.cons_append]
          exact trimLeft_cons_nonws c _ hc
    rw [hleft]
    exact trimRight_joinCommaSpace (a :: rest) h

theorem parseCsv_space (x : Str) : parseCsv (' ' :: x) = parseCsv x := by
  unfold parseCsv
  have hsplit : splitComma (' ' :: x) =
      match splitComma x with
      | [] => [[' ']]
      | l :: ls => (' ' :: l) :: ls := by
    simp [splitComma]
  rw [hsplit]
  have hne := splitComma_ne_nil x
  match hm : splitComma x with
  | [] => exact absurd hm hne
  | l :: ls =>
    simp only [List.map_cons]
    rw [trim_ws_cons ' ' l rfl]

theorem parseCsv_cons_token (a y : Str) (hcomma : ',' ∉ a) :
    parseCsv (a ++ ',' :: y) = (if trim a ≠ [] then [trim a] else []) ++ parseCsv y := by
  unfold parseCsv
  rw [splitComma_append_comma a y hcomma]
  simp only [List.map_cons, List.filter_cons]
  split
  · next hcond =>
    simp at hcond
    simp [hcond]
  · next hcond =>
    simp at hcond
    simp [hcond]

theorem parseCsv_join (ls : List Str) (h : ∀ l ∈ ls, tokenOk l) :
    parseCsv (joinCommaSpace ls) = ls := by
  induction ls with
  | nil => simp [joinCommaSpace, parseCsv, splitComma, trim, trimLeft, trimRight]
  | cons a rest ih =>
    obtain ⟨_, ha2, ha3, ha4⟩ := h a (by simp)
    match rest with
    | [] =>
      simp only [joinCommaSpace]
      unfold parseCsv
      rw [splitComma_no_comma a ha4]
      simp only [List.map_cons, List.map_nil]
      rw [show trim a = a from ha2]
      simp [ha3]
    | b :: rs =>
      simp only [joinCommaSpace]
      rw [parseCsv_cons_token a _ ha4, parseCsv_space, ih (fun l hl => h l (by simp at hl; rcases hl with h1 | h1 <;> simp [h1]))]
      rw [show trim a = a from ha2]
      simp [ha3]

end Corrkit

namespace Corrkit

theorem mem_catMap {α β : Type} (f : α → List β) (l : List α) (x : β) :
    x ∈ catMap f l ↔ ∃ a ∈ l, x ∈ f a := by
  induction l with
  | nil => simp [catMap]
  | cons a as ih => simp [catMap, ih]

theorem blocks_meta_unreserved (ms : List Message) (hms : ∀ m ∈ ms, validMsg m) :
    ∀ kv ∈ List.filterMap metaParse (catMap encBlock ms), kv.1 ∉ reservedKeys := by
  intro kv hkv
  rw [List.mem_filterMap] at hkv
  obtain ⟨l, hl, hparse⟩ := hkv
  rw [mem_catMap] at hl
  obtain ⟨m, hm, hlm⟩ := hl
  obtain ⟨_, _, _, _, _, _, _, _, _, _, hb, hbl⟩ := hms m hm
  unfold encBlock at hlm
  rw [hb] at hlm
  simp only [List.mem_cons, List.mem_append, List.mem_singleton] at hlm
  rcases hlm with h | h | h | h | h | h
  · subst h; rw [metaParse_dash] at hparse; exact absurd hparse (by simp)
  · subst h; rw [metaParse_nil] at hparse; exact absurd hparse (by simp)
  · subst h
    unfold headerLine at hparse
    rw [metaParse_hash] at hparse
    exact absurd hparse (by simp)
  · subst h; rw [metaParse_nil] at hparse; exact absurd hparse (by simp)
  · have := (hbl l h).2.2
    exact metaSafe_some l kv this hparse
  · rcases h with h | h
    · subst h; rw [metaParse_nil] at hparse; exact absurd hparse (by simp)
    · simp at h

theorem filterMap_metaParse_pre (t : Thread) :
    List.filterMap metaParse (encPreamble t) =
      [("Labels".toList, ' ' :: joinCommaSpace t.labels),
       ("Accounts".toList, ' ' :: joinCommaSpace t.accounts),
       ("Thread ID".toList, ' ' :: t.id),
       ("Last updated".toList, ' ' :: t.last_date)] := by
  unfold encPreamble
  simp only [List.filterMap_cons, metaParse_nil, metaParse_labelsLine, metaParse_accountsLine,
    metaParse_threadIdLine, metaParse_lastUpdatedLine, List.filterMap_nil]
  have h1 : metaParse ('#' :: ' ' :: t.subject) = none := metaParse_hash _
  rw [h1]

theorem lookupMeta_encode (t : Thread) (hv : validThread t) (key : Str) :
    ∀ v : Str,
    (List.filter (fun kv => kv.1 = key)
      [(("Labels".toList : Str), ' ' :: joinCommaSpace t.labels),
       ("Accounts".toList, ' ' :: joinCommaSpace t.accounts),
       ("Thread ID".toList, ' ' :: t.id),
       ("Last updated".toList, ' ' :: t.last_date)]).getLast? =
        some ((key, v) : Str × Str) →
    key ∈ reservedKeys →
    lookupMeta (encLinesSplit t) key = some (trim v) := by
  intro v hfour hres
  obtain ⟨_, _, _, _, _, _, _, _, hmsg⟩ := hv
  unfold lookupMeta metaPairs encLinesSplit
  rw [List.filterMap_append, filterMap_metaParse_pre, List.filter_append]
  have hjunk : List.filter (fun kv => kv.1 = key)
      (List.filterMap metaParse (catMap encBlock t.messages)) = [] := by
    rw [List.filter_eq_nil_iff]
    intro kv hkv
    have hnr := blocks_meta_unreserved t.messages hmsg kv hkv
    simp only [decide_eq_true_eq]
    intro heq
    rw [heq] at hnr
    exact hnr hres
  rw [hjunk, List.append_nil, hfour]
  simp

end Corrkit

namespace Corrkit

theorem findSubject_encode (t : Thread) (hsub : trim t.subject = t.subject) :
    (encLinesSplit t).findSome? (fun l => (dropPre ("# ".toList) l).map trim) =
      some t.subject := by
  unfold encLinesSplit encPreamble
  simp only [List.cons_append, List.findSome?_cons]
  have h1 : dropPre ("# ".toList) ('#' :: ' ' :: t.subject) = some t.subject := by
    have e : '#' :: ' ' :: t.subject = "# ".toList ++ t.subject := rfl
    rw [e]
    exact dropPre_self_append _ _
  rw [h1]
  simp [hsub]

theorem lookupMeta_labels (t : Thread) (hv : validThread t) :
    lookupMeta (encLinesSplit t) ("Labels".toList) =
      some (trim (' ' :: joinCommaSpace t.labels)) :=
  lookupMeta_encode t hv _ _ rfl (by simp [reservedKeys])

theorem lookupMeta_accounts (t : Thread) (hv : validThread t) :
    lookupMeta (encLinesSplit t) ("Accounts".toList) =
      some (trim (' ' :: joinCommaSpace t.accounts)) :=
  lookupMeta_encode t hv _ _ rfl (by simp [reservedKeys])

theorem lookupMeta_tid (t : Thread) (hv : validThread t) :
    lookupMeta (encLinesSplit t) ("Thread ID".toList) = some (trim (' ' :: t.id)) :=
  lookupMeta_encode t hv _ _ rfl (by simp [reservedKeys])

theorem lookupMeta_lastUpdated (t : Thread) (hv : validThread t) :
    lookupMeta (encLinesSplit t) ("Last updated".toList) = some (trim (' ' :: t.last_date)) :=
  lookupMeta_encode t hv _ _ rfl (by simp [reservedKeys])

theorem parse_encode (t : Thread) (hv : validThread t) :
    parse_thread_markdown (thread_to_markdown t) = some (roundtripThread t) := by
  have hv2 := hv
  obtain ⟨hs1, hs2, hs3, hid1, hid2, hlu1, hlab, hacc, hmsg⟩ := hv2
  unfold parse_thread_markdown
  rw [splitNl_encode t hv, findSubject_encode t hs2]
  simp only []
  rw [if_neg hs3]
  rw [lookupMeta_labels t hv, lookupMeta_accounts t hv, lookupMeta_tid t hv,
    lookupMeta_lastUpdated t hv, parseMsgs_encode t.subject t hv]
  rw [trim_joinCommaSpace t.labels hlab, trim_joinCommaSpace t.accounts hacc]
  rw [trim_ws_cons ' ' t.id rfl, trim_ws_cons ' ' t.last_date rfl]
  rw [show trim t.id = t.id from hid2]
  unfold roundtripThread
  simp [parseCsv_join t.labels hlab, parseCsv_join t.accounts hacc]

end Corrkit

namespace Corrkit

theorem findSome?_dropPre (p : Str) (lines : List Str) :
    lines.findSome? (fun l => (dropPre p l).map trim) =
      (lines.find? (fun l => (dropPre p l).isSome)).map (fun l => trim (l.drop p.length)) := by
  induction lines with
  | nil => rfl
  | cons a as ih =>
    rw [List.findSome?_cons, List.find?_cons]
    cases hd : dropPre p a with
    | none => simp [hd, ih]
    | some r =>
      have := dropPre_eq_some p a r hd
      subst this
      simp [hd]

/-- C9: `parse_thread_markdown` returns `None` exactly when the input has no
line starting with `"# "`, or the first such line has empty heading text
after trimming; on every other input it returns `Some` thread (the embedding
is total, so it can never panic). -/
theorem C9_parse_none_iff (text : Str) :
    parse_thread_markdown text = none ↔
      (match (splitNl text).find? (fun l => (dropPre ("# ".toList) l).isSome) with
       | none => True
       | some l => trim (l.drop 2) = []) := by
  unfold parse_thread_markdown
  rw [findSome?_dropPre]
  cases hf : (splitNl text).find? (fun l => (dropPre ("# ".toList) l).isSome) with
  | none => simp
  | some l =>
    simp only [Option.map_some]
    by_cases he : trim (l.drop ("# ".toList).length) = []
    · simp [he]
    · simp [he]

/-- C1 counterexample: the claim quantifies over every `Thread` value, but
decoding the encoding of the default thread (whose subject is empty) yields
`None`, not `Some`. -/
theorem C1_counterexample :
    parse_thread_markdown (thread_to_markdown Thread.default0) = none := by rfl

/-- C1 (amended): for every well-formed thread - single-line trimmed
nonempty subject; single-line trimmed id; single-line `last_date`;
labels and accounts single-line, trimmed, nonempty, comma-free; every
message with single-line trimmed nonempty sender free of the em-dash
separator, single-line trimmed nonempty date, and a trimmed body none of
whose lines is a message header, a `---` line, or a reserved metadata
line - decoding the encoding returns `Some` of a thread reproducing the
subject, id, labels, accounts, and every message's from, date and body
(missing optional metadata decodes to the empty string). -/
theorem C1_roundtrip (t : Thread) (hv : validThread t) :
    ∃ t2, parse_thread_markdown (thread_to_markdown t) = some t2 ∧
      t2.subject = t.subject ∧ t2.id = t.id ∧ t2.labels = t.labels ∧
      t2.accounts = t.accounts ∧
      t2.messages.map (fun m => (m.from_, m.date, m.body)) =
        t.messages.map (fun m => (m.from_, m.date, m.body)) :=
  ⟨roundtripThread t, parse_encode t hv, rfl, rfl, rfl, rfl, by
    unfold roundtripThread
    simp [decodedMsg]⟩

/-- C1 witness: the round-trip theorem applied to a concrete thread. -/
theorem C1_roundtrip_witness :
    validThread testThread ∧
      ∃ t2, parse_thread_markdown (thread_to_markdown testThread) = some t2 ∧
        t2.subject = testThread.subject ∧ t2.id = testThread.id ∧
        t2.labels = testThread.labels ∧ t2.accounts = testThread.accounts ∧
        t2.messages.map (fun m => (m.from_, m.date, m.body)) =
          testThread.messages.map (fun m => (m.from_, m.date, m.body)) :=
  ⟨by decide, C1_roundtrip testThread (by decide)⟩

end Corrkit

namespace Corrkit

theorem collapse_dedup (l : Str) :
    dedupHyph (l.map (fun c => if slugAllowed c then c else '-')) = collapseAux false l ∧
    dedupHyph ('-' :: l.map (fun c => if slugAllowed c then c else '-')) =
      '-' :: collapseAux true l := by
  induction l with
  | nil => exact ⟨rfl, rfl⟩
  | cons c cs ih =>
    by_cases hc : slugAllowed c = true
    · have hcd : c ≠ '-' := by
        intro h
        subst h
        simp [slugAllowed] at hc
      constructor
      · simp only [List.map_cons, hc, if_pos]
        have step : dedupHyph (c :: cs.map (fun c => if slugAllowed c then c else '-')) =
            c :: dedupHyph (cs.map (fun c => if slugAllowed c then c else '-')) := by
          match hm : cs.map (fun c => if slugAllowed c then c else '-') with
          | [] => rfl
          | c2 :: rest =>
            simp only [dedupHyph]
            rw [if_neg (fun hand => hcd hand.1)]
        rw [step, ih.1]
        simp [collapseAux, hc]
      · simp only [List.map_cons, hc, if_pos]
        have step : dedupHyph ('-' :: c :: cs.map (fun c => if slugAllowed c then c else '-')) =
            '-' :: dedupHyph (c :: cs.map (fun c => if slugAllowed c then c else '-')) := by
          simp only [dedupHyph]
          rw [if_neg (fun hand => hcd hand.2)]
        rw [step]
        have step2 : dedupHyph (c :: cs.map (fun c => if slugAllowed c then c else '-')) =
            c :: dedupHyph (cs.map (fun c => if slugAllowed c then c else '-')) := by
          match hm : cs.map (fun c => if slugAllowed c then c else '-') with
          | [] => rfl
          | c2 :: rest =>
            simp only [dedupHyph]
            rw [if_neg (fun hand => hcd hand.1)]
        rw [step2, ih.1]
        simp [collapseAux, hc]
    · have hc' : slugAllowed c = false := by simpa using hc
      constructor
      · simp only [List.map_cons, hc', if_neg, Bool.false_eq_true, not_false_iff]
        rw [ih.2]
        simp [collapseAux, hc']
      · simp only [List.map_cons, hc', if_neg, Bool.false_eq_true, not_false_iff]
        have step : dedupHyph ('-' :: '-' :: cs.map (fun c => if slugAllowed c then c else '-')) =
            dedupHyph ('-' :: cs.map (fun c => if slugAllowed c then c else '-')) := by
          simp [dedupHyph]
        rw [step, ih.2]
        simp [collapseAux, hc']

theorem utf8Size_pos (c : Char) : 1 ≤ c.utf8Size := by
  unfold Char.utf8Size
  dsimp only
  split
  · simp
  · split
    · simp
    · split <;> simp

theorem takeBytes_all (l : Str) (n : Nat) (h : utf8Len l ≤ n) : takeBytes l n = l := by
  induction l generalizing n with
  | nil => rfl
  | cons c cs ih =>
    have hlen : utf8Len (c :: cs) = c.utf8Size + utf8Len cs := by
      unfold utf8Len
      simp
    rw [hlen] at h
    unfold takeBytes
    rw [if_pos (by omega)]
    rw [ih (n - c.utf8Size) (by omega)]

theorem utf8Len_takeBytes_le (l : Str) (n : Nat) : utf8Len (takeBytes l n) ≤ n := by
  induction l generalizing n with
  | nil => simp [takeBytes, utf8Len]
  | cons c cs ih =>
    unfold takeBytes
    split
    · next hle =>
      have : utf8Len (c :: takeBytes cs (n - c.utf8Size)) =
          c.utf8Size + utf8Len (takeBytes cs (n - c.utf8Size)) := by
        unfold utf8Len; simp
      rw [this]
      have := ih (n - c.utf8Size)
      omega
    · simp [utf8Len]

theorem takeBytes_max (l : Str) (n : Nat) (k : Nat) (h : utf8Len (l.take k) ≤ n) :
    utf8Len (l.take k) ≤ utf8Len (takeBytes l n) := by
  induction l generalizing n k with
  | nil => simp [utf8Len, takeBytes]
  | cons c cs ih =>
    match k with
    | 0 => simp [utf8Len]
    | k + 1 =>
      have hsplit : utf8Len ((c :: cs).take (k + 1)) = c.utf8Size + utf8Len (cs.take k) := by
        unfold utf8Len; simp
      rw [hsplit] at h ⊢
      unfold takeBytes
      rw [if_pos (by omega)]
      have : utf8Len (c :: takeBytes cs (n - c.utf8Size)) =
          c.utf8Size + utf8Len (takeBytes cs (n - c.utf8Size)) := by
        unfold utf8Len; simp
      rw [this]
      have := ih (n - c.utf8Size) k (by omega)
      omega

theorem takeBytes_of_len (l : Str) (n : Nat) :
    takeBytes l (utf8Len (takeBytes l n)) = takeBytes l n := by
  induction l generalizing n with
  | nil => rfl
  | cons c cs ih =>
    by_cases hle : c.utf8Size ≤ n
    · have h1 : takeBytes (c :: cs) n = c :: takeBytes cs (n - c.utf8Size) := by
        rw [show takeBytes (c :: cs) n =
          if c.utf8Size ≤ n then c :: takeBytes cs (n - c.utf8Size) else [] from rfl, if_pos hle]
      have hlen : utf8Len (c :: takeBytes cs (n - c.utf8Size)) =
          c.utf8Size + utf8Len (takeBytes cs (n - c.utf8Size)) := by
        unfold utf8Len; simp
      rw [h1, hlen]
      have h2 : takeBytes (c :: cs) (c.utf8Size + utf8Len (takeBytes cs (n - c.utf8Size))) =
          c :: takeBytes cs (c.utf8Size + utf8Len (takeBytes cs (n - c.utf8Size)) - c.utf8Size) := by
        rw [show takeBytes (c :: cs) (c.utf8Size + utf8Len (takeBytes cs (n - c.utf8Size))) =
          if c.utf8Size ≤ c.utf8Size + utf8Len (takeBytes cs (n - c.utf8Size)) then
            c :: takeBytes cs (c.utf8Size + utf8Len (takeBytes cs (n - c.utf8Size)) - c.utf8Size)
          else [] from rfl, if_pos (by omega)]
      rw [h2]
      have harith : c.utf8Size + utf8Len (takeBytes cs (n - c.utf8Size)) - c.utf8Size =
          utf8Len (takeBytes cs (n - c.utf8Size)) := by omega
      rw [harith, ih (n - c.utf8Size)]
    · have h1 : takeBytes (c :: cs) n = [] := by
        rw [show takeBytes (c :: cs) n =
          if c.utf8Size ≤ n then c :: takeBytes cs (n - c.utf8Size) else [] from rfl, if_neg hle]
      rw [h1]
      have h0 : utf8Len ([] : Str) = 0 := rfl
      rw [h0]
      rw [show takeBytes (c :: cs) 0 =
        if c.utf8Size ≤ 0 then c :: takeBytes cs (0 - c.utf8Size) else [] from rfl,
        if_neg (by have := utf8Size_pos c; omega)]

end Corrkit

namespace Corrkit

theorem takeBytes_is_take (l : Str) (n : Nat) :
    ∃ k, k ≤ l.length ∧ takeBytes l n = l.take k := by
  induction l generalizing n with
  | nil => exact ⟨0, by simp, rfl⟩
  | cons c cs ih =>
    by_cases hle : c.utf8Size ≤ n
    · obtain ⟨k, hk, he⟩ := ih (n - c.utf8Size)
      refine ⟨k + 1, by simp; omega, ?_⟩
      rw [show takeBytes (c :: cs) n =
        if c.utf8Size ≤ n then c :: takeBytes cs (n - c.utf8Size) else [] from rfl,
        if_pos hle, he]
      simp
    · refine ⟨0, by simp, ?_⟩
      rw [show takeBytes (c :: cs) n =
        if c.utf8Size ≤ n then c :: takeBytes cs (n - c.utf8Size) else [] from rfl,
        if_neg hle]
      simp

theorem isBoundaryAt_iff (l : Str) (n : Nat) :
    isBoundaryAt l n = true ↔ ∃ k, k ≤ l.length ∧ utf8Len (l.take k) = n := by
  unfold isBoundaryAt
  rw [List.any_eq_true]
  constructor
  · rintro ⟨k, hk, he⟩
    exact ⟨k, by simp [Nat.lt_succ_iff] at hk; omega, by simpa using he⟩
  · rintro ⟨k, hk, he⟩
    exact ⟨k, by simp [Nat.lt_succ_iff]; omega, by simpa using he⟩

theorem findBoundaryDown_eq (l : Str) (b : Nat) :
    ∀ n, b ≤ n → isBoundaryAt l b = true →
    (∀ j, b < j → j ≤ n → isBoundaryAt l j = false) →
    findBoundaryDown l n = b := by
  intro n
  induction n with
  | zero =>
    intro hb _ _
    interval_cases b
    rfl
  | succ n ih =>
    intro hb hbd hnone
    by_cases he : b = n + 1
    · subst he
      unfold findBoundaryDown
      rw [if_pos hbd]
    · have hlt : b ≤ n := by omega
      unfold findBoundaryDown
      rw [if_neg (by rw [hnone (n + 1) (by omega) (by omega)]; simp)]
      exact ih hlt hbd (fun j h1 h2 => hnone j h1 (by omega))

theorem slugify_eq_spec (s : Str) : slugify s = spec_slugify s := by
  unfold slugify spec_slugify collapseRuns
  dsimp only
  rw [(collapse_dedup (lowerStr s)).1]
  set t := trimHyphens (collapseAux false (lowerStr s)) with ht
  by_cases hlen : utf8Len t > 60
  · rw [if_pos hlen]
    have hb := utf8Len_takeBytes_le t 60
    have hbd : isBoundaryAt t (utf8Len (takeBytes t 60)) = true := by
      rw [isBoundaryAt_iff]
      obtain ⟨k, hk, he⟩ := takeBytes_is_take t 60
      exact ⟨k, hk, by rw [← he]⟩
    have hnone : ∀ j, utf8Len (takeBytes t 60) < j → j ≤ 60 → isBoundaryAt t j = false := by
      intro j h1 h2
      by_cases hj : isBoundaryAt t j = true
      · exfalso
        rw [isBoundaryAt_iff] at hj
        obtain ⟨k, hk, he⟩ := hj
        have := takeBytes_max t 60 k (by omega)
        omega
      · simpa using hj
    rw [findBoundaryDown_eq t (utf8Len (takeBytes t 60)) 60 hb hbd hnone, takeBytes_of_len]
  · rw [if_neg hlen, takeBytes_all t 60 (by omega)]

end Corrkit

namespace Corrkit

theorem trimRight_append (x y : Str) :
    trimRight (x ++ y) = if trimRight y = [] then trimRight x else x ++ trimRight y := by
  unfold trimRight
  rw [List.reverse_append, List.dropWhile_append]
  by_cases he : (y.reverse.dropWhile isWs).isEmpty = true
  · rw [if_pos he]
    rw [List.isEmpty_iff] at he
    rw [if_pos (by rw [he]; rfl)]
  · rw [if_neg he]
    rw [List.isEmpty_iff] at he
    rw [if_neg (fun hc => he (by simpa using congrArg List.reverse hc))]
    simp

theorem trim_comm (l : Str) : trimRight (trimLeft l) = trimLeft (trimRight l) := by
  induction l with
  | nil => rfl
  | cons c cs ih =>
    have h2 : trimRight (c :: cs) =
        if trimRight cs = [] then trimRight [c] else c :: trimRight cs := by
      simpa using trimRight_append [c] cs
    by_cases hw : isWs c = true
    · have h1 : trimLeft (c :: cs) = trimLeft cs := by
        unfold trimLeft
        rw [List.dropWhile_cons_of_pos hw]
      have hc0 : trimRight [c] = [] := by
        unfold trimRight
        simp [List.dropWhile_cons, hw]
      rw [h1, ih, h2]
      by_cases hnil : trimRight cs = []
      · rw [if_pos hnil, hnil, hc0]
      · rw [if_neg hnil]
        have hstep : trimLeft (c :: trimRight cs) = trimLeft (trimRight cs) := by
          unfold trimLeft
          rw [List.dropWhile_cons_of_pos hw]
        rw [hstep]
    · have hwf : isWs c = false := by simpa using hw
      have h1 : trimLeft (c :: cs) = c :: cs := trimLeft_cons_nonws c cs hwf
      have hc1 : trimRight [c] = [c] := by
        unfold trimRight
        simp [List.dropWhile_cons, hwf]
      rw [h1, h2]
      by_cases hnil : trimRight cs = []
      · rw [if_pos hnil, hc1, trimLeft_cons_nonws c [] hwf]
      · rw [if_neg hnil, trimLeft_cons_nonws c (trimRight cs) hwf]

theorem trimRight_eq_nil_all_ws (l : Str) (h : trimRight l = []) : ∀ c ∈ l, isWs c = true := by
  unfold trimRight at h
  have h2 : l.reverse.dropWhile isWs = [] := by
    simpa using congrArg List.reverse h
  rw [List.dropWhile_eq_nil_iff] at h2
  intro c hc
  exact h2 c (by simp [hc])

theorem trimLeft_eq_nil_of_all_ws (l : Str) (h : ∀ c ∈ l, isWs c = true) : trimLeft l = [] := by
  unfold trimLeft
  rw [List.dropWhile_eq_nil_iff]
  exact h

theorem trim_eq_nil_of_all_ws (l : Str) (h : ∀ c ∈ l, isWs c = true) : trim l = [] := by
  unfold trim
  rw [trimLeft_eq_nil_of_all_ws l h]
  rfl

theorem lowerStr_idem (l : Str) : lowerStr (lowerStr l) = lowerStr l := by
  unfold lowerStr
  rw [List.map_map]
  apply List.map_congr_left
  intro c _
  exact lowerChar_idem c

theorem dropWhile_isWs_lowerStr (l : Str) :
    (lowerStr l).dropWhile isWs = lowerStr (l.dropWhile isWs) := by
  induction l with
  | nil => rfl
  | cons c cs ih =>
    unfold lowerStr at *
    simp only [List.map_cons, List.dropWhile_cons, lowerChar_isWs]
    by_cases hw : isWs c = true
    · simp [hw, ih]
    · simp [hw]

theorem ciStrip_eq_dropPre (pat s : Str) (hp : lowerStr pat = pat) (hs : lowerStr s = s) :
    ciStrip pat s = dropPre pat s := by
  induction pat generalizing s with
  | nil => cases s <;> rfl
  | cons p ps ih =>
    match s with
    | [] => rfl
    | c :: cs =>
      unfold lowerStr at hp hs
      simp only [List.map_cons, List.cons.injEq] at hp hs
      unfold ciStrip dropPre
      rw [hp.1, hs.1]
      by_cases he : c = p
      · rw [if_pos he, if_pos he]
        exact ih cs hp.2 hs.2
      · rw [if_neg he, if_neg he]

end Corrkit

namespace Corrkit

theorem stripReplyMarker_eq_litStrip (u : Str) (hu : lowerStr u = u) :
    stripReplyMarker u = litStrip u := by
  unfold stripReplyMarker litStrip
  rw [ciStrip_eq_dropPre ("re:".toList) u (by decide) hu,
    ciStrip_eq_dropPre ("fwd:".toList) u (by decide) hu,
    ciStrip_eq_dropPre ("fw:".toList) u (by decide) hu]

theorem stripReplyMarker_no_marker (u : Str) (hu : lowerStr u = u)
    (h : ¬ hasReplyMarker u) : stripReplyMarker u = u := by
  unfold hasReplyMarker at h
  push_neg at h
  obtain ⟨h1, h2, h3⟩ := h
  unfold stripReplyMarker
  rw [ciStrip_eq_dropPre ("re:".toList) u (by decide) hu,
    ciStrip_eq_dropPre ("fwd:".toList) u (by decide) hu,
    ciStrip_eq_dropPre ("fw:".toList) u (by decide) hu]
  cases hd1 : dropPre ("re:".toList) u with
  | some r => rw [hd1] at h1; simp at h1
  | none =>
    cases hd2 : dropPre ("fwd:".toList) u with
    | some r => rw [hd2] at h2; simp at h2
    | none =>
      cases hd3 : dropPre ("fw:".toList) u with
      | some r => rw [hd3] at h3; simp at h3
      | none => rfl

theorem all_ws_trimRight_nil (l : Str) (h : ∀ c ∈ l, isWs c = true) : trimRight l = [] := by
  unfold trimRight
  have : l.reverse.dropWhile isWs = [] := by
    rw [List.dropWhile_eq_nil_iff]
    intro c hc
    exact h c (by simpa using hc)
  rw [this]
  rfl

theorem dropWhile_isWs_all_ws_append (a b : Str) (h : ∀ c ∈ a, isWs c = true) :
    (a ++ b).dropWhile isWs = b.dropWhile isWs := by
  rw [List.dropWhile_append]
  have : a.dropWhile isWs = [] := by
    rw [List.dropWhile_eq_nil_iff]
    exact h
  simp [this]

theorem key_invariant_core (w ws s : Str)
    (hlw : lowerStr w = "re".toList ∨ lowerStr w = "fw".toList ∨ lowerStr w = "fwd".toList)
    (hws : ∀ c ∈ ws, isWs c = true)
    (hs : ¬ hasReplyMarker (lowerStr (trim s))) :
    thread_key_from_subject ((w ++ ':' :: ws) ++ s) = thread_key_from_subject s := by
  -- the reassociated shape used throughout
  have hshape : (w ++ ':' :: ws) ++ s = (w ++ [':']) ++ (ws ++ s) := by simp
  -- the marker keeps a non-whitespace head, so trimLeft is the identity
  have hhead : ∀ c cs2, w = c :: cs2 → isWs c = false := by
    intro c cs2 hw
    subst hw
    rcases hlw with h | h | h <;>
    · unfold lowerStr at h
      simp only [List.map_cons] at h
      have hc := List.cons.injEq .. ▸ h
      have hc1 : lowerChar c = 'r' ∨ lowerChar c = 'f' := by
        simp at h
        first
        | exact Or.inl h.1
        | exact Or.inr h.1
      have := lowerChar_isWs c
      rcases hc1 with h2 | h2 <;> rw [h2] at this <;> simpa using this.symm
  have hwne : w ≠ [] := by
    rcases hlw with h | h | h <;>
    · intro hw
      rw [hw] at h
      simp [lowerStr] at h
  obtain ⟨c1, w2, hw12⟩ := List.exists_cons_of_ne_nil hwne
  have htl : trimLeft ((w ++ ':' :: ws) ++ s) = (w ++ ':' :: ws) ++ s := by
    rw [hw12]
    exact trimLeft_cons_nonws c1 _ (hhead c1 w2 hw12)
  have htrim : trim ((w ++ ':' :: ws) ++ s) = trimRight ((w ++ [':']) ++ (ws ++ s)) := by
    unfold trim
    rw [htl, hshape]
  have hcolon : trimRight (w ++ [':']) = w ++ [':'] := by
    rw [trimRight_append w [':']]
    have : trimRight [':'] = [':'] := by decide
    rw [this]
    simp
  by_cases hnil : trimRight (ws ++ s) = []
  · -- everything after the colon is whitespace: both keys are empty
    have hall := trimRight_eq_nil_all_ws _ hnil
    have hsws : ∀ c ∈ s, isWs c = true := fun c hc => hall c (by simp [hc])
    have hts : trim s = [] := trim_eq_nil_of_all_ws s hsws
    unfold thread_key_from_subject
    rw [htrim, trimRight_append _ _, if_pos hnil, hcolon, hts]
    have hlower : lowerStr (w ++ [':']) = lowerStr w ++ [':'] := by
      unfold lowerStr
      simp
      decide
    rw [hlower]
    rcases hlw with h | h | h <;> rw [h] <;> decide
  · have hrs : trimRight (ws ++ s) = ws ++ trimRight s := by
      rw [trimRight_append ws s]
      have : trimRight s ≠ [] := by
        intro hts
        apply hnil
        apply all_ws_trimRight_nil
        intro c hc
        simp at hc
        rcases hc with hc | hc
        · exact hws c hc
        · exact trimRight_eq_nil_all_ws s hts c hc
      simp [this]
    unfold thread_key_from_subject
    rw [htrim, trimRight_append _ _, if_neg hnil, hrs]
    have hlower : lowerStr ((w ++ [':']) ++ (ws ++ trimRight s)) =
        lowerStr w ++ ':' :: (lowerStr ws ++ lowerStr (trimRight s)) := by
      unfold lowerStr
      simp
      decide
    rw [hlower]
    have hwsl : ∀ c ∈ lowerStr ws, isWs c = true := by
      intro c hc
      unfold lowerStr at hc
      rw [List.mem_map] at hc
      obtain ⟨a, ha, rfl⟩ := hc
      rw [lowerChar_isWs]
      exact hws a ha
    have hdrop : (lowerStr ws ++ lowerStr (trimRight s)).dropWhile isWs =
        lowerStr (trim s) := by
      rw [dropWhile_isWs_all_ws_append _ _ hwsl, dropWhile_isWs_lowerStr]
      have : (trimRight s).dropWhile isWs = trimLeft (trimRight s) := rfl
      rw [this, ← trim_comm]
      rfl
    have hfinal : stripReplyMarker (lowerStr (trim s)) = lowerStr (trim s) :=
      stripReplyMarker_no_marker _ (lowerStr_idem (trim s)) hs
    rcases hlw with h | h | h <;> rw [h]
    · rw [show ("re".toList : Str) ++ ':' :: (lowerStr ws ++ lowerStr (trimRight s)) =
        'r' :: 'e' :: ':' :: (lowerStr ws ++ lowerStr (trimRight s)) from rfl]
      have hre : stripReplyMarker ('r' :: 'e' :: ':' :: (lowerStr ws ++ lowerStr (trimRight s))) =
          (lowerStr ws ++ lowerStr (trimRight s)).dropWhile isWs := rfl
      rw [hre, hdrop, hfinal]
    · rw [show ("fw".toList : Str) ++ ':' :: (lowerStr ws ++ lowerStr (trimRight s)) =
        'f' :: 'w' :: ':' :: (lowerStr ws ++ lowerStr (trimRight s)) from rfl]
      have hfw : stripReplyMarker ('f' :: 'w' :: ':' :: (lowerStr ws ++ lowerStr (trimRight s))) =
          (lowerStr ws ++ lowerStr (trimRight s)).dropWhile isWs := rfl
      rw [hfw, hdrop, hfinal]
    · rw [show ("fwd".toList : Str) ++ ':' :: (lowerStr ws ++ lowerStr (trimRight s)) =
        'f' :: 'w' :: 'd' :: ':' :: (lowerStr ws ++ lowerStr (trimRight s)) from rfl]
      have hfwd : stripReplyMarker ('f' :: 'w' :: 'd' :: ':' :: (lowerStr ws ++ lowerStr (trimRight s))) =
          (lowerStr ws ++ lowerStr (trimRight s)).dropWhile isWs := rfl
      rw [hfwd, hdrop, hfinal]

end Corrkit

namespace Corrkit

/-- C7: `slugify` does exactly what the specification says - lowercases,
collapses every run of non-alphanumeric characters to one hyphen, trims
leading and trailing hyphens, truncates to at most 60 bytes without
splitting a character, and substitutes `"untitled"` for an empty result. -/
theorem C7_slugify_spec (s : Str) : slugify s = spec_slugify s := by
  unfold slugify spec_slugify collapseRuns
  dsimp only
  rw [(collapse_dedup (lowerStr s)).1]
  set t := trimHyphens (collapseAux false (lowerStr s)) with ht
  by_cases hlen : utf8Len t > 60
  · rw [if_pos hlen]
    have hb := utf8Len_takeBytes_le t 60
    have hbd : isBoundaryAt t (utf8Len (takeBytes t 60)) = true := by
      rw [isBoundaryAt_iff]
      obtain ⟨k, hk, he⟩ := takeBytes_is_take t 60
      exact ⟨k, hk, by rw [← he]⟩
    have hnone : ∀ j, utf8Len (takeBytes t 60) < j → j ≤ 60 → isBoundaryAt t j = false := by
      intro j h1 h2
      by_cases hj : isBoundaryAt t j = true
      · exfalso
        rw [isBoundaryAt_iff] at hj
        obtain ⟨k, hk, he⟩ := hj
        have := takeBytes_max t 60 k (by omega)
        omega
      · simpa using hj
    rw [findBoundaryDown_eq t (utf8Len (takeBytes t 60)) 60 hb hbd hnone, takeBytes_of_len]
  · rw [if_neg hlen, takeBytes_all t 60 (by omega)]

/-- C6 counterexample: `"Re: Re: hi"` and `"Re: hi"` differ by exactly one
leading reply marker, yet their thread keys differ (only one marker is ever
stripped), refuting the claim's universally stated consequence. -/
theorem C6_counterexample :
    thread_key_from_subject ("Re: ".toList ++ "Re: hi".toList) ≠
      thread_key_from_subject ("Re: hi".toList) := by decide

/-- C6 (amended): `thread_key_from_subject` equals the spec-side key (trim,
lowercase, strip at most one leading `re:`/`fwd:`/`fw:` marker - colon
required, following whitespace consumed); and two subjects differing only
by one leading reply marker get the same key provided the shorter subject
does not itself start (after trimming and lowercasing) with such a
marker. -/
theorem C6_thread_key :
    (∀ s, thread_key_from_subject s = spec_thread_key s) ∧
    (∀ p s, isReplyMarkerStr p → ¬ hasReplyMarker (lowerStr (trim s)) →
      thread_key_from_subject (p ++ s) = thread_key_from_subject s) := by
  constructor
  · intro s
    unfold thread_key_from_subject spec_thread_key
    exact stripReplyMarker_eq_litStrip _ (lowerStr_idem (trim s))
  · intro p s hp hs
    obtain ⟨w, ws, rfl, hlw, hws⟩ := hp
    exact key_invariant_core w ws s hlw hws hs

/-- C6 witness: the amended theorem applied at concrete subjects. -/
theorem C6_thread_key_witness :
    thread_key_from_subject ("A B".toList) = spec_thread_key ("A B".toList) ∧
      thread_key_from_subject ("Re: ".toList ++ "hello".toList) =
        thread_key_from_subject ("hello".toList) :=
  ⟨C6_thread_key.1 ("A B".toList),
    C6_thread_key.2 ("Re: ".toList) ("hello".toList)
      ⟨"Re".toList, [' '], rfl, Or.inl (by decide), by decide⟩ (by decide)⟩

end Corrkit

namespace Corrkit

theorem cursorFold_eq_foldl_max (ok : Nat → Bool) (start : Nat) (uids : List Nat) :
    cursorFold ok start uids = (uids.filter ok).foldl max start := by
  induction uids generalizing start with
  | nil => rfl
  | cons u us ih =>
    rw [List.filter_cons]
    by_cases hok : ok u = true
    · simp only [hok, if_pos, List.foldl_cons]
      rw [show cursorFold ok start (u :: us) =
          cursorFold ok (if start < u then u else start) us from by
        unfold cursorFold
        rw [List.foldl_cons]
        simp [hok]]
      rw [ih]
      congr 1
      rcases Nat.lt_or_ge start u with h | h
      · rw [if_pos h, Nat.max_eq_right (Nat.le_of_lt h)]
      · rw [if_neg (Nat.not_lt.mpr h), Nat.max_eq_left h]
    · simp only [hok, Bool.false_eq_true, if_false]
      rw [show cursorFold ok start (u :: us) = cursorFold ok start us from by
        unfold cursorFold
        rw [List.foldl_cons]
        simp [hok]]
      rw [ih]

theorem le_foldl_max (start : Nat) (l : List Nat) : start ≤ l.foldl max start := by
  induction l generalizing start with
  | nil => simp
  | cons u us ih =>
    rw [List.foldl_cons]
    exact Nat.le_trans (Nat.le_max_left start u) (ih (max start u))

/-- C10: `parse_msg_date` is total by construction; when neither the RFC
2822 parser nor the fallback mail date parser accepts the string it returns
exactly the Unix epoch (timestamp 0), and in the chronological sort such a
message's key is strictly below that of any message whose date parses to an
instant after the epoch. -/
theorem C10_parse_msg_date (rfc2822 mailDate : Str → Option Int) (tsOk : Int → Bool)
    (s1 s2 : Str) (h1 : rfc2822 s1 = none) (h2 : mailDate s1 = none) :
    parse_msg_date rfc2822 mailDate tsOk s1 = 0 ∧
    (0 < parse_msg_date rfc2822 mailDate tsOk s2 →
      parse_msg_date rfc2822 mailDate tsOk s1 < parse_msg_date rfc2822 mailDate tsOk s2) := by
  have he : parse_msg_date rfc2822 mailDate tsOk s1 = 0 := by
    unfold parse_msg_date
    rw [h1, h2]
  exact ⟨he, fun hpos => by rw [he]; exact hpos⟩

/-- C10 witness: epoch fallback and ordering at concrete parsers and dates. -/
theorem C10_parse_msg_date_witness :
    parse_msg_date (fun s => if s = "x".toList then some 5 else none) (fun _ => none)
        (fun _ => true) ("bogus".toList) = 0 ∧
      (0 < parse_msg_date (fun s => if s = "x".toList then some 5 else none) (fun _ => none)
          (fun _ => true) ("x".toList) →
        parse_msg_date (fun s => if s = "x".toList then some 5 else none) (fun _ => none)
            (fun _ => true) ("bogus".toList) <
          parse_msg_date (fun s => if s = "x".toList then some 5 else none) (fun _ => none)
            (fun _ => true) ("x".toList)) :=
  C10_parse_msg_date (fun s => if s = "x".toList then some 5 else none) (fun _ => none)
    (fun _ => true) ("bogus".toList) ("x".toList) (by decide) rfl

/-- C4: `sync_label` takes the full (SINCE-based) search exactly when a full
resync was requested, no prior `LabelState` exists, or the stored
uidvalidity differs from the folder's current one; otherwise it fetches the
incremental search result restricted to ordinals strictly greater than the
stored `last_uid`. -/
theorem C4_fetch_mode (full : Bool) (prior : Option LabelState) (uv : Nat) :
    (doFull full prior uv = true ↔
      full = true ∨ prior = none ∨ ∃ p, prior = some p ∧ p.uidvalidity ≠ uv) ∧
    (∀ searchFull searchIncr : List Nat, doFull full prior uv = false →
      selectedUids full prior uv searchFull searchIncr =
        searchIncr.filter (fun u => (prior.map LabelState.last_uid).getD 0 < u)) := by
  constructor
  · cases prior with
    | none =>
      unfold doFull
      simp
    | some p =>
      have hd : doFull full (some p) uv = true ↔ full = true ∨ p.uidvalidity ≠ uv := by
        unfold doFull
        simp
      rw [hd]
      constructor
      · rintro (h | h)
        · exact Or.inl h
        · exact Or.inr (Or.inr ⟨p, rfl, h⟩)
      · rintro (h | h | ⟨q, hq, hne⟩)
        · exact Or.inl h
        · exact absurd h (by simp)
        · obtain rfl : p = q := by injection hq
          exact Or.inr hne
  · intro sF sI h
    unfold selectedUids
    rw [if_neg (by rw [h]; simp)]

/-- C4 witness: incremental mode at a concrete prior state filters the
server's incremental search result to ordinals above the stored cursor. -/
theorem C4_fetch_mode_witness :
    selectedUids false (some ⟨3, 7⟩) 3 [1, 2] [5, 8, 9] =
      [5, 8, 9].filter (fun u => ((some (⟨3, 7⟩ : LabelState)).map LabelState.last_uid).getD 0 < u) :=
  (C4_fetch_mode false (some ⟨3, 7⟩) 3).2 [1, 2] [5, 8, 9] (by decide)

/-- C5 counterexample: an ordinal whose message fails to fetch or parse is
`continue`d past the `max_uid` update, so the stored `last_uid` is not the
maximum over every ordinal fetched in the run (3 instead of `max 3 5`). -/
theorem C5_counterexample :
    (syncLabelState false (some ⟨7, 3⟩) 7 [] [5] (fun _ => false)).last_uid = 3 ∧
      (3 : Nat) ≠ max 3 5 := by decide

/-- C5 (amended): a completed `sync_label` run that selected the folder
persists the folder's current uidvalidity, and a `last_uid` equal to the
maximum of the prior stored value (0 if none) and every ordinal of this run
whose message was successfully fetched and parsed; an empty search result
therefore preserves the prior cursor, and the stored `last_uid` never
decreases. -/
theorem C5_cursor (full : Bool) (prior : Option LabelState) (uv : Nat)
    (searchFull searchIncr : List Nat) (ok : Nat → Bool) :
    (syncLabelState full prior uv searchFull searchIncr ok).uidvalidity = uv ∧
    (syncLabelState full prior uv searchFull searchIncr ok).last_uid =
      ((selectedUids full prior uv searchFull searchIncr).filter ok).foldl max
        ((prior.map LabelState.last_uid).getD 0) ∧
    ((prior.map LabelState.last_uid).getD 0) ≤
      (syncLabelState full prior uv searchFull searchIncr ok).last_uid := by
  unfold syncLabelState
  dsimp only
  by_cases he : (selectedUids full prior uv searchFull searchIncr).isEmpty = true
  · rw [if_pos he]
    rw [List.isEmpty_iff] at he
    rw [he]
    simp
  · rw [if_neg he]
    refine ⟨rfl, ?_, ?_⟩
    · exact cursorFold_eq_foldl_max ok _ _
    · rw [cursorFold_eq_foldl_max ok _ _]
      exact le_foldl_max _ _

end Corrkit

namespace Corrkit

theorem mem_of_mem_dropWhile {p : Char → Bool} {l : Str} {c : Char}
    (h : c ∈ l.dropWhile p) : c ∈ l := by
  induction l with
  | nil => simp [List.dropWhile] at h
  | cons x xs ih =>
    rw [List.dropWhile_cons] at h
    split at h
    · exact List.mem_cons_of_mem x (ih h)
    · exact h

theorem mem_of_mem_trim {l : Str} {c : Char} (h : c ∈ trim l) : c ∈ l := by
  unfold trim trimRight trimLeft at h
  rw [List.mem_reverse] at h
  have h2 := mem_of_mem_dropWhile h
  rw [List.mem_reverse] at h2
  exact mem_of_mem_dropWhile h2

theorem noNl_trim (l : Str) (h : noNl l) : noNl (trim l) := by
  intro hc
  exact h (mem_of_mem_trim hc)

theorem getLast?_map {α β : Type} (f : α → β) (l : List α) :
    (l.map f).getLast? = (l.getLast?).map f := by
  induction l with
  | nil => rfl
  | cons a as ih =>
    match as with
    | [] => rfl
    | b :: bs =>
      simp only [List.map_cons] at ih ⊢
      rw [List.getLast?_cons_cons]
      exact ih

theorem validThread_roundtrip (t : Thread) (hv : validThread t) :
    validThread (roundtripThread t) := by
  obtain ⟨hs1, hs2, hs3, hid1, hid2, hlu1, hlab, hacc, hmsg⟩ := hv
  refine ⟨hs1, hs2, hs3, hid1, hid2, noNl_trim _ hlu1, hlab, hacc, ?_⟩
  intro m hm
  unfold roundtripThread at hm
  simp only [List.mem_map] at hm
  obtain ⟨m0, hm0, rfl⟩ := hm
  obtain ⟨hf1, hf2, hf3, hf4, hd1, hd2, hd3, _, _, _, hb, hbl⟩ := hmsg m0 hm0
  exact ⟨hf1, hf2, hf3, hf4, hd1, hd2, hd3, hs1, hs2, hs3, hb, hbl⟩

theorem accLabels_messages (t : Thread) (l a : Str) :
    (accLabels t l a).messages = t.messages := by
  unfold accLabels accAccount accLabel
  split <;> split <;> rfl

theorem accLabels_last_date (t : Thread) (l a : Str) :
    (accLabels t l a).last_date = t.last_date := by
  unfold accLabels accAccount accLabel
  split <;> split <;> rfl

theorem accLabels_id (t : Thread) (l a : Str) : (accLabels t l a).id = t.id := by
  unfold accLabels accAccount accLabel
  split <;> split <;> rfl

theorem accLabels_subject (t : Thread) (l a : Str) :
    (accLabels t l a).subject = t.subject := by
  unfold accLabels accAccount accLabel
  split <;> split <;> rfl

theorem accLabel_labels_mem (t : Thread) (l : Str) (hl : l ≠ []) :
    l ∈ (accLabel t l).labels := by
  unfold accLabel
  by_cases hmem : l ∈ t.labels
  · rw [if_neg (fun hc => hc.2 hmem)]
    exact hmem
  · rw [if_pos ⟨hl, hmem⟩]
    simp

theorem accAccount_labels (t : Thread) (a : Str) : (accAccount t a).labels = t.labels := by
  unfold accAccount
  split <;> rfl

theorem accAccount_accounts_mem (t : Thread) (a : Str) (ha : a ≠ []) :
    a ∈ (accAccount t a).accounts := by
  unfold accAccount
  by_cases hmem : a ∈ t.accounts
  · rw [if_neg (fun hc => hc.2 hmem)]
    exact hmem
  · rw [if_pos ⟨ha, hmem⟩]
    simp

theorem accLabels_label_mem (t : Thread) (l a : Str) (hl : l ≠ []) :
    l ∈ (accLabels t l a).labels := by
  unfold accLabels
  rw [accAccount_labels]
  exact accLabel_labels_mem t l hl

theorem accLabels_account_mem (t : Thread) (l a : Str) (ha : a ≠ []) :
    a ∈ (accLabels t l a).accounts := by
  unfold accLabels
  exact accAccount_accounts_mem _ a ha

theorem writeFile_mem (dir : Dir) (name content : Str) (e : Str × Str)
    (h : e ∈ writeFile dir name content) : e ∈ dir ∨ e = (name, content) := by
  unfold writeFile at h
  split at h
  · rw [List.mem_map] at h
    obtain ⟨e0, he0, heq⟩ := h
    by_cases hn : e0.1 = name
    · rw [if_pos hn] at heq
      exact Or.inr heq.symm
    · rw [if_neg hn] at heq
      exact Or.inl (heq ▸ he0)
  · rw [List.mem_append] at h
    rcases h with h | h
    · exact Or.inl h
    · simp at h
      exact Or.inr h

end Corrkit

namespace Corrkit

theorem getLast?_mem2 {α : Type} : ∀ (l : List α) (a : α), l.getLast? = some a → a ∈ l
  | [], a, h => by simp at h
  | [x], a, h => by
    simp at h
    simp [h]
  | x :: y :: xs, a, h => by
    rw [List.getLast?_cons_cons] at h
    exact List.mem_cons_of_mem x (getLast?_mem2 (y :: xs) a h)

theorem accLabel_valid (t : Thread) (l : Str) (hv : validThread t)
    (hl : l = [] ∨ tokenOk l) : validThread (accLabel t l) := by
  unfold accLabel
  split
  · next h =>
    obtain ⟨h1, h2, h3, h4, h5, h6, h7, h8, h9⟩ := hv
    refine ⟨h1, h2, h3, h4, h5, h6, ?_, h8, h9⟩
    intro x hx
    have hx2 : x ∈ t.labels ++ [l] := hx
    rcases List.mem_append.mp hx2 with hx3 | hx3
    · exact h7 x hx3
    · rw [List.mem_singleton] at hx3
      subst hx3
      rcases hl with rfl | hl
      · exact absurd rfl h.1
      · exact hl
  · exact hv

theorem accAccount_valid (t : Thread) (a : Str) (hv : validThread t)
    (ha : a = [] ∨ tokenOk a) : validThread (accAccount t a) := by
  unfold accAccount
  split
  · next h =>
    obtain ⟨h1, h2, h3, h4, h5, h6, h7, h8, h9⟩ := hv
    refine ⟨h1, h2, h3, h4, h5, h6, h7, ?_, h9⟩
    intro x hx
    have hx2 : x ∈ t.accounts ++ [a] := hx
    rcases List.mem_append.mp hx2 with hx3 | hx3
    · exact h8 x hx3
    · rw [List.mem_singleton] at hx3
      subst hx3
      rcases ha with rfl | ha
      · exact absurd rfl h.1
      · exact ha
  · exact hv

theorem accLabels_valid (t : Thread) (l a : Str) (hv : validThread t)
    (hl : l = [] ∨ tokenOk l) (ha : a = [] ∨ tokenOk a) :
    validThread (accLabels t l a) :=
  accAccount_valid _ _ (accLabel_valid t l hv hl) ha

theorem lastDate_trimmed (t : Thread) (hv : validThread t) (hne : t.messages ≠ [])
    (hld : t.last_date = ((t.messages.getLast?).map Message.date).getD []) :
    trim t.last_date = t.last_date := by
  cases hgl : t.messages.getLast? with
  | none =>
    have hs := List.getLast?_isSome (l := t.messages)
    rw [hgl] at hs
    simp at hs
    exact absurd hs hne
  | some m =>
    have hm := getLast?_mem2 _ _ hgl
    obtain ⟨_, _, _, _, _, _, _, _, hmsg⟩ := hv
    obtain ⟨_, _, _, _, _, hd2, _, _, _, _, _, _⟩ := hmsg m hm
    rw [hld, hgl]
    exact hd2

theorem roundtrip_messages (t : Thread) :
    (roundtripThread t).messages = t.messages.map (decodedMsg t.subject) := rfl

theorem roundtrip_pairwise (dp : Str → Int) (t : Thread)
    (h : List.Pairwise (dateLe dp) t.messages) :
    List.Pairwise (dateLe dp) (roundtripThread t).messages := by
  rw [roundtrip_messages]
  refine List.Pairwise.map _ ?_ h
  intro a b hab
  exact hab

theorem roundtrip_getLast_date (t : Thread) :
    ((roundtripThread t).messages.getLast?).map Message.date =
      (t.messages.getLast?).map Message.date := by
  rw [roundtrip_messages, getLast?_map]
  cases t.messages.getLast? <;> rfl

theorem roundtrip_messages_ne (t : Thread) (h : t.messages ≠ []) :
    (roundtripThread t).messages ≠ [] := by
  rw [roundtrip_messages]
  simp [h]

theorem find_thread_file_mem (dir : Dir) (key : Str) (e : Str × Str)
    (h : find_thread_file dir key = some e) : e ∈ dir := by
  unfold find_thread_file at h
  exact List.mem_of_find?_eq_some h

theorem freshThread_subject (key : Str) (m : Message) :
    (freshThread key m).subject = m.subject := rfl

theorem freshThread_messages (key : Str) (m : Message) :
    (freshThread key m).messages = [] := rfl

theorem sortUpd_props (dp : Str → Int) (t : Thread) (m : Message)
    (hv : validThread t) (hm : validMsg m) :
    validThread (sortUpd dp t m) ∧
    List.Pairwise (dateLe dp) (sortUpd dp t m).messages ∧
    (sortUpd dp t m).messages ≠ [] ∧
    (sortUpd dp t m).last_date =
      (((sortUpd dp t m).messages.getLast?).map Message.date).getD [] := by
  haveI hTot : IsTotal Message (fun a b => dp a.date ≤ dp b.date) :=
    ⟨fun a b => le_total _ _⟩
  haveI hTr : IsTrans Message (fun a b => dp a.date ≤ dp b.date) :=
    ⟨fun a b c h1 h2 => le_trans h1 h2⟩
  have hperm := List.perm_insertionSort (fun a b => dp a.date ≤ dp b.date) (t.messages ++ [m])
  have hmemS : ∀ x ∈ (sortUpd dp t m).messages, x ∈ t.messages ++ [m] :=
    fun x hx => hperm.mem_iff.mp hx
  have hvalS : ∀ x ∈ (sortUpd dp t m).messages, validMsg x := by
    intro x hx
    rcases List.mem_append.mp (hmemS x hx) with h | h
    · obtain ⟨_, _, _, _, _, _, _, _, hmsg⟩ := hv
      exact hmsg x h
    · rw [List.mem_singleton] at h
      subst h
      exact hm
  have hne : (sortUpd dp t m).messages ≠ [] := by
    intro hc
    have hlen := hperm.length_eq
    rw [show (sortUpd dp t m).messages =
        List.insertionSort (fun a b => dp a.date ≤ dp b.date) (t.messages ++ [m]) from rfl] at hc
    rw [hc] at hlen
    simp at hlen
  have hpair : List.Pairwise (dateLe dp) (sortUpd dp t m).messages := by
    have hs : List.Sorted (fun a b : Message => dp a.date ≤ dp b.date)
        (List.insertionSort (fun a b : Message => dp a.date ≤ dp b.date) (t.messages ++ [m])) :=
      List.sorted_insertionSort _ _
    exact hs
  refine ⟨?_, hpair, hne, rfl⟩
  obtain ⟨hs1, hs2, hs3, hid1, hid2, _, hlab, hacc, _⟩ := hv
  refine ⟨hs1, hs2, hs3, hid1, hid2, ?_, hlab, hacc, hvalS⟩
  cases hgl : (sortUpd dp t m).messages.getLast? with
  | none =>
    show noNl ((((sortUpd dp t m).messages.getLast?).map Message.date).getD [])
    rw [hgl]
    intro hc
    simp at hc
  | some ml =>
    have hmm := getLast?_mem2 _ _ hgl
    have hvm := hvalS ml hmm
    show noNl ((((sortUpd dp t m).messages.getLast?).map Message.date).getD [])
    rw [hgl]
    exact hvm.2.2.2.2.1

theorem merge_found_dup (dp : Str → Int) (dir : Dir) (l a : Str) (msg : Message)
    (key : Str) (entry : Str × Str) (t0 : Thread)
    (hfind : find_thread_file dir key = some entry)
    (hparse : parse_thread_markdown entry.2 = some t0)
    (hdup : (accLabels t0 l a).messages.any
      (fun m => m.from_ = msg.from_ ∧ m.date = msg.date) = true) :
    merge_message_to_file dp dir l a msg key =
      (writeFile dir entry.1 (thread_to_markdown (accLabels t0 l a)), some entry.1) := by
  simp only [merge_message_to_file, hfind, hparse, hdup]
  rfl

theorem merge_found_new (dp : Str → Int) (dir : Dir) (l a : Str) (msg : Message)
    (key : Str) (entry : Str × Str) (t0 : Thread)
    (hfind : find_thread_file dir key = some entry)
    (hparse : parse_thread_markdown entry.2 = some t0)
    (hdup : (accLabels t0 l a).messages.any
      (fun m => m.from_ = msg.from_ ∧ m.date = msg.date) = false) :
    merge_message_to_file dp dir l a msg key =
      (writeFile dir entry.1 (thread_to_markdown (sortUpd dp (accLabels t0 l a) msg)),
       some entry.1) := by
  simp only [merge_message_to_file, hfind, hparse, hdup]
  rfl

theorem merge_none (dp : Str → Int) (dir : Dir) (l a : Str) (msg : Message) (key : Str)
    (hfind : find_thread_file dir key = none) :
    merge_message_to_file dp dir l a msg key =
      (writeFile dir
        (mdName (unique_slug dir (slugify (accLabels (freshThread key msg) l a).subject)))
        (thread_to_markdown (sortUpd dp (accLabels (freshThread key msg) l a) msg)),
       some (mdName (unique_slug dir (slugify (accLabels (freshThread key msg) l a).subject)))) := by
  simp only [merge_message_to_file, hfind]
  rw [if_neg ?cond]
  case cond =>
    rw [accLabels_messages]
    intro hc
    rw [freshThread_messages] at hc
    simp at hc
  rfl

theorem merge_preserves_inv (dp : Str → Int) (dir : Dir) (c : MergeCall)
    (hc : validCall c) (hinv : dirInv dp dir) :
    dirInv dp (merge_message_to_file dp dir c.label c.account c.msg c.key).1 := by
  obtain ⟨hcl, hca, hcm, _, hk1, hk2⟩ := hc
  cases hfind : find_thread_file dir c.key with
  | none =>
    rw [merge_none dp dir c.label c.account c.msg c.key hfind]
    intro e he
    rcases writeFile_mem dir _ _ e he with hmem | heq
    · exact hinv e hmem
    · subst heq
      have hvf : validThread (freshThread c.key c.msg) := by
        obtain ⟨_, _, _, _, _, _, _, hm8, hm9, hm10, _, _⟩ := hcm
        refine ⟨hm8, hm9, hm10, hk1, hk2, ?_, ?_, ?_, ?_⟩
        · intro h
          have h2 : '\n' ∈ ([] : Str) := h
          simp at h2
        · intro x hx
          have h2 : x ∈ ([] : List Str) := hx
          simp at h2
        · intro x hx
          have h2 : x ∈ ([] : List Str) := hx
          simp at h2
        · intro x hx
          have h2 : x ∈ ([] : List Message) := hx
          simp at h2
      have hv1 : validThread (accLabels (freshThread c.key c.msg) c.label c.account) :=
        accLabels_valid _ _ _ hvf hcl hca
      obtain ⟨hA, hB, hC, hD⟩ := sortUpd_props dp _ c.msg hv1 hcm
      exact ⟨sortUpd dp (accLabels (freshThread c.key c.msg) c.label c.account) c.msg,
        rfl, hA, hB, hC, hD⟩
  | some entry =>
    have hmem0 : entry ∈ dir := find_thread_file_mem dir c.key entry hfind
    obtain ⟨t', henc, hvt', hpair', hne', hld'⟩ := hinv entry hmem0
    have hparse : parse_thread_markdown entry.2 = some (roundtripThread t') := by
      rw [henc]
      exact parse_encode t' hvt'
    have hv1 : validThread (accLabels (roundtripThread t') c.label c.account) :=
      accLabels_valid _ _ _ (validThread_roundtrip t' hvt') hcl hca
    cases hdup : (accLabels (roundtripThread t') c.label c.account).messages.any
        (fun m => m.from_ = c.msg.from_ ∧ m.date = c.msg.date) with
    | true =>
      rw [merge_found_dup dp dir c.label c.account c.msg c.key entry _ hfind hparse hdup]
      intro e he
      rcases writeFile_mem dir _ _ e he with hmem | heq
      · exact hinv e hmem
      · subst heq
        refine ⟨accLabels (roundtripThread t') c.label c.account, rfl, hv1, ?_, ?_, ?_⟩
        · rw [accLabels_messages]
          exact roundtrip_pairwise dp t' hpair'
        · rw [accLabels_messages]
          exact roundtrip_messages_ne t' hne'
        · rw [accLabels_last_date, accLabels_messages, roundtrip_getLast_date]
          show trim t'.last_date = _
          rw [lastDate_trimmed t' hvt' hne' hld']
          exact hld'
    | false =>
      rw [merge_found_new dp dir c.label c.account c.msg c.key entry _ hfind hparse hdup]
      intro e he
      rcases writeFile_mem dir _ _ e he with hmem | heq
      · exact hinv e hmem
      · subst heq
        obtain ⟨hA, hB, hC, hD⟩ := sortUpd_props dp _ c.msg hv1 hcm
        exact ⟨sortUpd dp (accLabels (roundtripThread t') c.label c.account) c.msg,
          rfl, hA, hB, hC, hD⟩

theorem dirInv_nil (dp : Str → Int) : dirInv dp [] := by
  intro e he
  simp at he

theorem mergeSeq_inv (dp : Str → Int) (calls : List MergeCall) (dir : Dir)
    (hc : ∀ c ∈ calls, validCall c) (hinv : dirInv dp dir) :
    dirInv dp (mergeSeq dp calls dir) := by
  induction calls generalizing dir with
  | nil => exact hinv
  | cons c cs ih =>
    exact ih (merge_message_to_file dp dir c.label c.account c.msg c.key).1
      (fun x hx => hc x (by simp [hx]))
      (merge_preserves_inv dp dir c (hc c (by simp)) hinv)

end Corrkit

namespace Corrkit

/-- **C2** (corrected): after any sequence of well-formed merge calls
starting from the empty directory, every persisted file decodes to a
thread whose message list is sorted ascending by parsed date — regardless
of insertion order — and whose `last_date` equals the date of the last
message of that sorted list.  The well-formedness restriction is
necessary: the claim as stated over arbitrary messages is refuted by
`C2_counterexample`, where a message body that embeds a forged
`## from — date` header line persists a file decoding to an out-of-order
message list. -/
theorem C2_chronological (dp : Str → Int) (calls : List MergeCall)
    (h : ∀ c ∈ calls, validCall c) :
    ∀ e ∈ mergeSeq dp calls [], ∃ t : Thread,
      parse_thread_markdown e.2 = some t ∧
      List.Pairwise (dateLe dp) t.messages ∧ t.messages ≠ [] ∧
      t.last_date = ((t.messages.getLast?).map Message.date).getD [] := by
  intro e he
  obtain ⟨t, henc, hv, hp, hne, hld⟩ := mergeSeq_inv dp calls [] h (dirInv_nil dp) e he
  refine ⟨roundtripThread t, ?_, roundtrip_pairwise dp t hp, roundtrip_messages_ne t hne, ?_⟩
  · rw [henc]
    exact parse_encode t hv
  · rw [roundtrip_getLast_date]
    show trim t.last_date = _
    rw [lastDate_trimmed t hv hne hld]
    exact hld

/-- Witness: two well-formed merges of the same message under two labels
leave a single file whose decoded thread satisfies the chronological
invariant. -/
theorem C2_chronological_witness :
    ∃ t : Thread,
      parse_thread_markdown
        (((mergeSeq dpLen [callOk, callOk2] []).head?.getD ([], [])).2) = some t ∧
      List.Pairwise (dateLe dpLen) t.messages ∧ t.messages ≠ [] ∧
      t.last_date = ((t.messages.getLast?).map Message.date).getD [] :=
  C2_chronological dpLen [callOk, callOk2] (by decide)
    ((mergeSeq dpLen [callOk, callOk2] []).head?.getD ([], [])) (by decide)

/-- A single merge of a message whose body smuggles a `## from — date`
header line persists a file that decodes to a message list that is *not*
sorted by parsed date: the unrestricted claim is false. -/
theorem C2_counterexample :
    ((mergeSeq dpLen [callDateSmuggle] []).all (fun e =>
      match parse_thread_markdown e.2 with
      | some t => List.Pairwise (dateLe dpLen) t.messages
      | none => True)) = false := by decide

end Corrkit

namespace Corrkit

theorem findSome?_cons_none {α β : Type} (f : α → Option β) (a : α) (l : List α)
    (h : f a = none) : List.findSome? f (a :: l) = List.findSome? f l := by
  simp [List.findSome?_cons, h]

theorem findSome?_cons_some {α β : Type} (f : α → Option β) (a : α) (l : List α) (b : β)
    (h : f a = some b) : List.findSome? f (a :: l) = some b := by
  simp [List.findSome?_cons, h]

theorem threadId_of_encode (t : Thread) (hv : validThread t) :
    threadIdOfContent (thread_to_markdown t) = some t.id := by
  have hid2 : trimmedP t.id := hv.2.2.2.2.1
  unfold threadIdOfContent
  rw [splitNl_encode t hv]
  unfold encLinesSplit encPreamble
  simp only [List.cons_append, List.nil_append]
  rw [findSome?_cons_none _ _ _ rfl, findSome?_cons_none _ _ _ rfl,
    findSome?_cons_none _ _ _ rfl, findSome?_cons_none _ _ _ rfl,
    findSome?_cons_some _ _ _ _ (threadIdLine_encode t.id),
    show trim t.id = t.id from hid2]

theorem freshThread_valid (key : Str) (m : Message) (hm : validMsg m)
    (hk1 : noNl key) (hk2 : trimmedP key) : validThread (freshThread key m) := by
  obtain ⟨_, _, _, _, _, _, _, hm8, hm9, hm10, _, _⟩ := hm
  refine ⟨hm8, hm9, hm10, hk1, hk2, ?_, ?_, ?_, ?_⟩
  · intro h
    have h2 : '\n' ∈ ([] : Str) := h
    simp at h2
  · intro x hx
    have h2 : x ∈ ([] : List Str) := hx
    simp at h2
  · intro x hx
    have h2 : x ∈ ([] : List Str) := hx
    simp at h2
  · intro x hx
    have h2 : x ∈ ([] : List Message) := hx
    simp at h2

end Corrkit

namespace Corrkit

/-- **C3**: (a) when the incoming `(from, date)` pair already occurs among
the decoded existing thread's messages, `merge_message_to_file` inserts no
message: it persists the accumulated thread to the existing file — whose
messages and `last_date` are unchanged, and which captures a nonempty new
label or account — and returns the existing path.  (b) (corrected) merging
the identical well-formed message into the same thread twice, starting
from an empty directory, yields exactly one occurrence of its
`(from, date)` pair in the decoded result.  The well-formedness in (b) is
necessary: a message whose body smuggles its own `## from — date` header
line decodes to two occurrences after the double merge
(`C3_counterexample`). -/
theorem C3_dedup :
    (∀ (dp : Str → Int) (dir : Dir) (l a : Str) (msg : Message) (key : Str)
        (entry : Str × Str) (t0 : Thread),
      find_thread_file dir key = some entry →
      parse_thread_markdown entry.2 = some t0 →
      t0.messages.any (fun m => m.from_ = msg.from_ ∧ m.date = msg.date) = true →
      merge_message_to_file dp dir l a msg key =
        (writeFile dir entry.1 (thread_to_markdown (accLabels t0 l a)), some entry.1) ∧
      (accLabels t0 l a).messages = t0.messages ∧
      (accLabels t0 l a).last_date = t0.last_date ∧
      (l ≠ [] → l ∈ (accLabels t0 l a).labels) ∧
      (a ≠ [] → a ∈ (accLabels t0 l a).accounts)) ∧
    (∀ (dp : Str → Int) (c : MergeCall), validCall c →
      ∀ e ∈ mergeSeq dp [c, c] [], ∃ t : Thread,
        parse_thread_markdown e.2 = some t ∧
        countFromDate c.msg.from_ c.msg.date t.messages = 1) := by
  constructor
  · intro dp dir l a msg key entry t0 hfind hparse hdup
    have hdup2 : (accLabels t0 l a).messages.any
        (fun m => m.from_ = msg.from_ ∧ m.date = msg.date) = true := by
      rw [accLabels_messages]
      exact hdup
    refine ⟨merge_found_dup dp dir l a msg key entry t0 hfind hparse hdup2,
      accLabels_messages t0 l a, accLabels_last_date t0 l a,
      fun hl => accLabels_label_mem t0 l a hl,
      fun ha => accLabels_account_mem t0 l a ha⟩
  · intro dp c hc e he
    obtain ⟨hcl, hca, hcm, _, hk1, hk2⟩ := hc
    have e1 := merge_none dp [] c.label c.account c.msg c.key rfl
    set t1 := accLabels (freshThread c.key c.msg) c.label c.account with ht1
    set t2 := sortUpd dp t1 c.msg with ht2
    set N := mdName (unique_slug [] (slugify t1.subject)) with hN
    have hv1 : validThread t1 :=
      accLabels_valid _ _ _ (freshThread_valid c.key c.msg hcm hk1 hk2) hcl hca
    have hv2 : validThread t2 := (sortUpd_props dp t1 c.msg hv1 hcm).1
    have h2m : t2.messages = [c.msg] := by
      show List.insertionSort (fun a b => dp a.date ≤ dp b.date)
        (t1.messages ++ [c.msg]) = [c.msg]
      rw [show t1.messages = [] from by rw [ht1, accLabels_messages, freshThread_messages]]
      rfl
    have h2id : t2.id = c.key := by
      show t1.id = c.key
      rw [ht1, accLabels_id, show (freshThread c.key c.msg).id = c.key from rfl]
    have s1 : (merge_message_to_file dp [] c.label c.account c.msg c.key).1 =
        [(N, thread_to_markdown t2)] := by
      rw [e1]
      rfl
    have hfind2 : find_thread_file [(N, thread_to_markdown t2)] c.key =
        some (N, thread_to_markdown t2) := by
      unfold find_thread_file
      simp [List.find?, threadId_of_encode t2 hv2, h2id]
    have hparse2 : parse_thread_markdown (thread_to_markdown t2) =
        some (roundtripThread t2) := parse_encode t2 hv2
    set t3 := accLabels (roundtripThread t2) c.label c.account with ht3
    have hv3 : validThread t3 :=
      accLabels_valid _ _ _ (validThread_roundtrip t2 hv2) hcl hca
    have hdup : t3.messages.any
        (fun m => m.from_ = c.msg.from_ ∧ m.date = c.msg.date) = true := by
      rw [ht3, accLabels_messages, roundtrip_messages, h2m]
      simp [decodedMsg]
    have e2 := merge_found_dup dp [(N, thread_to_markdown t2)] c.label c.account c.msg
      c.key (N, thread_to_markdown t2) (roundtripThread t2) hfind2 hparse2 hdup
    have hseq : mergeSeq dp [c, c] [] = [(N, thread_to_markdown t3)] := by
      show (merge_message_to_file dp
        (merge_message_to_file dp [] c.label c.account c.msg c.key).1
        c.label c.account c.msg c.key).1 = _
      rw [s1, e2]
      simp [writeFile]
    rw [hseq] at he
    simp at he
    subst he
    refine ⟨roundtripThread t3, parse_encode t3 hv3, ?_⟩
    show countFromDate c.msg.from_ c.msg.date (roundtripThread t3).messages = 1
    rw [roundtrip_messages,
      show t3.messages = [decodedMsg t2.subject c.msg] from by
        rw [ht3, accLabels_messages, roundtrip_messages, h2m]
        rfl]
    unfold countFromDate
    simp [decodedMsg]

/-- Witness: the double merge of a well-formed message leaves one file
whose decoded thread holds its `(from, date)` pair exactly once. -/
theorem C3_dedup_witness :
    ∃ t : Thread,
      parse_thread_markdown
        (((mergeSeq dpLen [callOk, callOk] []).head?.getD ([], [])).2) = some t ∧
      countFromDate callOk.msg.from_ callOk.msg.date t.messages = 1 :=
  C3_dedup.2 dpLen callOk (by decide)
    ((mergeSeq dpLen [callOk, callOk] []).head?.getD ([], [])) (by decide)

/-- Merging a message whose body smuggles its own header line twice yields
*two* occurrences of its `(from, date)` pair in the decoded file, refuting
unrestricted dedup idempotence. -/
theorem C3_counterexample :
    (mergeSeq dpLen [callHeaderSmuggle, callHeaderSmuggle] []).map (fun e =>
      (parse_thread_markdown e.2).map (fun t =>
        countFromDate "f".toList "d".toList t.messages)) = [some 2] := by decide

end Corrkit

namespace Corrkit

theorem digitChar_inj : ∀ a, a < 10 → ∀ b, b < 10 → digitChar a = digitChar b → a = b := by
  decide

theorem natToStrAux_stable (n : Nat) : ∀ f1 f2, n < f1 → n < f2 →
    natToStrAux f1 n = natToStrAux f2 n := by
  induction n using Nat.strong_induction_on with
  | _ n ih =>
    intro f1 f2 h1 h2
    cases f1 with
    | zero => omega
    | succ g1 =>
      cases f2 with
      | zero => omega
      | succ g2 =>
        rw [show natToStrAux (g1 + 1) n = if n < 10 then [digitChar n]
              else natToStrAux g1 (n / 10) ++ [digitChar (n % 10)] from rfl,
            show natToStrAux (g2 + 1) n = if n < 10 then [digitChar n]
              else natToStrAux g2 (n / 10) ++ [digitChar (n % 10)] from rfl]
        by_cases hn : n < 10
        · rw [if_pos hn, if_pos hn]
        · rw [if_neg hn, if_neg hn]
          have hd : n / 10 < n := Nat.div_lt_self (by omega) (by omega)
          rw [ih (n / 10) hd g1 g2 (by omega) (by omega)]

theorem natToStr_lt10 (n : Nat) (h : n < 10) : natToStr n = [digitChar n] := by
  rw [show natToStr n = if n < 10 then [digitChar n]
      else natToStrAux n (n / 10) ++ [digitChar (n % 10)] from rfl, if_pos h]

theorem natToStr_ge10 (n : Nat) (h : 10 ≤ n) :
    natToStr n = natToStr (n / 10) ++ [digitChar (n % 10)] := by
  rw [show natToStr n = if n < 10 then [digitChar n]
      else natToStrAux n (n / 10) ++ [digitChar (n % 10)] from rfl, if_neg (by omega)]
  have hd : n / 10 < n := Nat.div_lt_self (by omega) (by omega)
  rw [natToStrAux_stable (n / 10) n (n / 10 + 1) hd (by omega)]
  rfl

theorem natToStr_len_pos (n : Nat) : 1 ≤ (natToStr n).length := by
  by_cases h : n < 10
  · rw [natToStr_lt10 n h]
    simp
  · rw [natToStr_ge10 n (by omega)]
    simp

theorem append_cancel_left2 {α : Type} : ∀ (as bs cs : List α), as ++ bs = as ++ cs → bs = cs
  | [], _, _, h => h
  | _ :: as, bs, cs, h => append_cancel_left2 as bs cs (by injection h)

theorem append_cancel_right2 {α : Type} (as bs cs : List α) (h : as ++ cs = bs ++ cs) :
    as = bs := by
  have h2 := congrArg List.reverse h
  simp only [List.reverse_append] at h2
  have h3 := append_cancel_left2 _ _ _ h2
  exact List.reverse_injective h3

theorem append_singleton_inj {α : Type} {xs ys : List α} {x y : α}
    (h : xs ++ [x] = ys ++ [y]) : xs = ys ∧ x = y := by
  have h2 := congrArg List.reverse h
  simp only [List.reverse_append, List.reverse_cons, List.reverse_nil, List.nil_append,
    List.singleton_append, List.cons.injEq] at h2
  exact ⟨List.reverse_injective h2.2, h2.1⟩

theorem natToStr_inj (a : Nat) : ∀ b, natToStr a = natToStr b → a = b := by
  induction a using Nat.strong_induction_on with
  | _ a ih =>
    intro b h
    by_cases ha : a < 10 <;> by_cases hb : b < 10
    · rw [natToStr_lt10 a ha, natToStr_lt10 b hb] at h
      simp only [List.cons.injEq, and_true] at h
      exact digitChar_inj a ha b hb h
    · rw [natToStr_lt10 a ha, natToStr_ge10 b (by omega)] at h
      have hlen := congrArg List.length h
      simp only [List.length_singleton, List.length_append] at hlen
      have := natToStr_len_pos (b / 10)
      omega
    · rw [natToStr_ge10 a (by omega), natToStr_lt10 b hb] at h
      have hlen := congrArg List.length h
      simp only [List.length_singleton, List.length_append] at hlen
      have := natToStr_len_pos (a / 10)
      omega
    · rw [natToStr_ge10 a (by omega), natToStr_ge10 b (by omega)] at h
      obtain ⟨h1, h2⟩ := append_singleton_inj h
      have hd : a / 10 = b / 10 :=
        ih (a / 10) (Nat.div_lt_self (by omega) (by omega)) (b / 10) h1
      have hm : a % 10 = b % 10 :=
        digitChar_inj _ (Nat.mod_lt _ (by omega)) _ (Nat.mod_lt _ (by omega)) h2
      omega

theorem slugName_inj (slug : Str) (n k : Nat)
    (h : mdName (slugN slug n) = mdName (slugN slug k)) : n = k := by
  unfold mdName slugN at h
  have h2 := append_cancel_right2 _ _ _ h
  have h3 := append_cancel_left2 _ _ _ h2
  simp only [List.cons.injEq, true_and] at h3
  exact natToStr_inj n k h3

theorem findFree_exists (names : List Str) (slug : Str) :
    ∃ j, j < names.length + 1 ∧ mdName (slugN slug (2 + j)) ∉ names := by
  by_contra hcon
  push_neg at hcon
  have hnd : ((List.range (names.length + 1)).map
      (fun j => mdName (slugN slug (2 + j)))).Nodup := by
    refine (List.nodup_range _).map ?_
    intro x y hxy
    have := slugName_inj slug (2 + x) (2 + y) hxy
    omega
  have hsub : ∀ x ∈ (List.range (names.length + 1)).map
      (fun j => mdName (slugN slug (2 + j))), x ∈ names := by
    intro x hx
    obtain ⟨j, hj, rfl⟩ := List.mem_map.mp hx
    rw [List.mem_range] at hj
    exact hcon j hj
  have hcard1 := List.toFinset_card_of_nodup hnd
  have hlen : ((List.range (names.length + 1)).map
      (fun j => mdName (slugN slug (2 + j)))).length = names.length + 1 := by
    simp
  have hsub2 : ((List.range (names.length + 1)).map
      (fun j => mdName (slugN slug (2 + j)))).toFinset ⊆ names.toFinset := by
    intro x hx
    rw [List.mem_toFinset] at hx ⊢
    exact hsub x hx
  have hcard2 := Finset.card_le_card hsub2
  have hcard3 := names.toFinset_card_le
  omega

theorem findFree_spec (names : List Str) (slug : Str) :
    ∀ (fuel n : Nat), (∃ j, j < fuel ∧ mdName (slugN slug (n + j)) ∉ names) →
      n ≤ findFree names slug fuel n ∧
      mdName (slugN slug (findFree names slug fuel n)) ∉ names ∧
      ∀ k, n ≤ k → k < findFree names slug fuel n → mdName (slugN slug k) ∈ names := by
  intro fuel
  induction fuel with
  | zero =>
    intro n h
    obtain ⟨j, hj, _⟩ := h
    omega
  | succ fuel ih =>
    intro n h
    obtain ⟨j, hj, hfree⟩ := h
    rw [show findFree names slug (fuel + 1) n =
        if mdName (slugN slug n) ∈ names then findFree names slug fuel (n + 1) else n from rfl]
    by_cases hn : mdName (slugN slug n) ∈ names
    · rw [if_pos hn]
      have hj0 : j ≠ 0 := by
        intro hc
        subst hc
        rw [Nat.add_zero] at hfree
        exact hfree hn
      obtain ⟨h1, h2, h3⟩ := ih (n + 1)
        ⟨j - 1, by omega, by rw [show n + 1 + (j - 1) = n + j from by omega]; exact hfree⟩
      refine ⟨by omega, h2, ?_⟩
      intro k hk1 hk2
      rcases Nat.eq_or_lt_of_le hk1 with rfl | hk3
      · exact hn
      · exact h3 k hk3 hk2
    · rw [if_neg hn]
      exact ⟨Nat.le_refl n, hn, fun k hk1 hk2 => by omega⟩

theorem unique_slug_fresh (dir : Dir) (slug : Str) :
    mdName (unique_slug dir slug) ∉ dirNames dir := by
  unfold unique_slug
  by_cases h : mdName slug ∈ dirNames dir
  · rw [if_pos h]
    obtain ⟨j, hj, hfree⟩ := findFree_exists (dirNames dir) slug
    exact (findFree_spec (dirNames dir) slug ((dirNames dir).length + 1) 2 ⟨j, hj, hfree⟩).2.1
  · rw [if_neg h]
    exact h

theorem unique_slug_unused (dir : Dir) (slug : Str) (h : mdName slug ∉ dirNames dir) :
    unique_slug dir slug = slug := by
  unfold unique_slug
  rw [if_neg h]

theorem unique_slug_used (dir : Dir) (slug : Str) (h : mdName slug ∈ dirNames dir) :
    ∃ n, 2 ≤ n ∧ unique_slug dir slug = slugN slug n ∧
      mdName (slugN slug n) ∉ dirNames dir ∧
      ∀ k, 2 ≤ k → k < n → mdName (slugN slug k) ∈ dirNames dir := by
  obtain ⟨j, hj, hfree⟩ := findFree_exists (dirNames dir) slug
  obtain ⟨h1, h2, h3⟩ :=
    findFree_spec (dirNames dir) slug ((dirNames dir).length + 1) 2 ⟨j, hj, hfree⟩
  refine ⟨findFree (dirNames dir) slug ((dirNames dir).length + 1) 2, h1, ?_, h2, h3⟩
  unfold unique_slug
  rw [if_pos h]

theorem writeFile_fresh (dir : Dir) (name content : Str) (h : name ∉ dirNames dir) :
    writeFile dir name content = dir ++ [(name, content)] := by
  unfold writeFile
  rw [if_neg]
  intro hc
  rw [List.any_eq_true] at hc
  obtain ⟨e, he, heq⟩ := hc
  rw [decide_eq_true_eq] at heq
  exact h (heq ▸ List.mem_map_of_mem (fun e => e.1) he)

theorem merge_new_append (dp : Str → Int) (dir : Dir) (l a : Str) (msg : Message)
    (key : Str) (hfind : find_thread_file dir key = none) :
    ∃ content, (merge_message_to_file dp dir l a msg key).1 =
      dir ++ [(mdName (unique_slug dir (slugify msg.subject)), content)] := by
  rw [merge_none dp dir l a msg key hfind]
  simp only [accLabels_subject, freshThread_subject]
  refine ⟨thread_to_markdown (sortUpd dp (accLabels (freshThread key msg) l a) msg), ?_⟩
  show writeFile dir (mdName (unique_slug dir (slugify msg.subject))) _ = _
  rw [writeFile_fresh dir _ _ (unique_slug_fresh dir (slugify msg.subject))]

end Corrkit

namespace Corrkit

/-- **C8**: when `merge_message_to_file` creates a new thread file it uses
`unique_slug`, which returns the slug itself when `{slug}.md` is unused and
otherwise the first index `n ≥ 2` with `{slug}-{n}.md` unused; the chosen
name is never already present, so the write appends a new file and
overwrites nothing; and three merges whose distinct thread keys share the
slug `hello` produce exactly the files `hello.md`, `hello-2.md`,
`hello-3.md`. -/
theorem C8_slug_collision :
    (∀ (dir : Dir) (slug : Str), mdName (unique_slug dir slug) ∉ dirNames dir) ∧
    (∀ (dir : Dir) (slug : Str),
      (mdName slug ∉ dirNames dir → unique_slug dir slug = slug) ∧
      (mdName slug ∈ dirNames dir → ∃ n, 2 ≤ n ∧ unique_slug dir slug = slugN slug n ∧
        mdName (slugN slug n) ∉ dirNames dir ∧
        ∀ k, 2 ≤ k → k < n → mdName (slugN slug k) ∈ dirNames dir)) ∧
    (∀ (dp : Str → Int) (dir : Dir) (l a : Str) (msg : Message) (key : Str),
      find_thread_file dir key = none →
      ∃ content, (merge_message_to_file dp dir l a msg key).1 =
        dir ++ [(mdName (unique_slug dir (slugify msg.subject)), content)]) ∧
    (mergeSeq dpLen [callSlugA, callSlugB, callSlugC] []).map (fun e => e.1) =
      ["hello.md".toList, "hello-2.md".toList, "hello-3.md".toList] := by
  refine ⟨unique_slug_fresh,
    fun dir slug => ⟨unique_slug_unused dir slug, unique_slug_used dir slug⟩,
    merge_new_append, by decide⟩

/-- Witness: on a directory already holding `hello.md` the slug resolves to
`hello-2`, and a merge into the empty directory appends
`{slug(subject)}.md`. -/
theorem C8_slug_collision_witness :
    (∃ n, 2 ≤ n ∧
      unique_slug [(mdName "hello".toList, [])] "hello".toList = slugN "hello".toList n ∧
      mdName (slugN "hello".toList n) ∉ dirNames [(mdName "hello".toList, [])] ∧
      ∀ k, 2 ≤ k → k < n →
        mdName (slugN "hello".toList k) ∈ dirNames [(mdName "hello".toList, [])]) ∧
    (∃ content,
      (merge_message_to_file dpLen [] "inbox".toList "acct".toList callSlugA.msg
        "k1".toList).1 =
      [] ++ [(mdName (unique_slug [] (slugify callSlugA.msg.subject)), content)]) :=
  ⟨(C8_slug_collision.2.1 [(mdName "hello".toList, [])] "hello".toList).2 (by decide),
   C8_slug_collision.2.2.1 dpLen [] "inbox".toList "acct".toList callSlugA.msg
     "k1".toList rfl⟩

end Corrkit
